import Mathlib

/-!
Verification of the `ledgerchaincode` asset-transfer contract
(`src/lib/assetTransfer.js`).

The contract stores JSON-encoded asset records in a key-value world state.
Before every write it canonicalises the record with `sortKeysRecursive` and a
deterministic `stringify`.  This file gives a shallow embedding of the JSON
data model, the canonical encoder, a JSON parser (for `JSON.parse`), the
world-state store, and every transaction handler of the contract, and proves
the specification claims about them.
-/

set_option maxRecDepth 10000

namespace Ledger

/-- JSON values as manipulated by the contract.  Numbers are modelled as
integers: every numeric value appearing in this contract is an integer
(`game_value` seeds are 300..800), and `JSON.stringify` prints integers in
minimal decimal form. -/
inductive Json where
  | null
  | bool (b : Bool)
  | num (n : Int)
  | str (s : String)
  | arr (elems : List Json)
  | obj (fields : List (String × Json))
deriving Repr

namespace Json

mutual

/-- Boolean structural equality on JSON values. -/
def beqJson : Json → Json → Bool
  | .null, .null => true
  | .bool a, .bool b => a == b
  | .num a, .num b => a == b
  | .str a, .str b => a == b
  | .arr a, .arr b => beqElems a b
  | .obj a, .obj b => beqFields a b
  | _, _ => false

/-- Boolean equality on element lists. -/
def beqElems : List Json → List Json → Bool
  | [], [] => true
  | a :: as, b :: bs => beqJson a b && beqElems as bs
  | _, _ => false

/-- Boolean equality on field lists. -/
def beqFields : List (String × Json) → List (String × Json) → Bool
  | [], [] => true
  | (k, v) :: as, (k', v') :: bs => k == k' && beqJson v v' && beqFields as bs
  | _, _ => false

end

mutual

theorem beqJson_iff : ∀ a b : Json, beqJson a b = true ↔ a = b
  | .null, b => by cases b <;> simp [beqJson]
  | .bool x, b => by cases b <;> simp [beqJson]
  | .num x, b => by cases b <;> simp [beqJson]
  | .str x, b => by cases b <;> simp [beqJson]
  | .arr xs, b => by
    cases b <;> simp [beqJson]
    exact beqElems_iff xs _
  | .obj xs, b => by
    cases b <;> simp [beqJson]
    exact beqFields_iff xs _

theorem beqElems_iff : ∀ a b : List Json, beqElems a b = true ↔ a = b
  | [], b => by cases b <;> simp [beqElems]
  | x :: xs, b => by
    cases b with
    | nil => simp [beqElems]
    | cons y ys =>
      simp only [beqElems, Bool.and_eq_true, beqJson_iff, beqElems_iff,
        List.cons.injEq]

theorem beqFields_iff : ∀ a b : List (String × Json), beqFields a b = true ↔ a = b
  | [], b => by cases b <;> simp [beqFields]
  | (k, v) :: xs, b => by
    cases b with
    | nil => simp [beqFields]
    | cons y ys =>
      obtain ⟨k', v'⟩ := y
      simp only [beqFields, Bool.and_eq_true, beqJson_iff, beqFields_iff,
        beq_iff_eq, List.cons.injEq, Prod.mk.injEq, and_assoc]

end

instance : DecidableEq Json := fun a b =>
  decidable_of_iff (beqJson a b = true) (beqJson_iff a b)

instance : Inhabited Json := ⟨Json.null⟩

/-- Property lookup on the field list of a JSON object (JS `o[k]`;
`none` models `undefined`). -/
def lookupField : List (String × Json) → String → Option Json
  | [], _ => none
  | (k', v) :: rest, k => if k' = k then some v else lookupField rest k

/-- Property read on a JSON value (JS `o.k`; `none` models `undefined`,
including reads on non-objects). -/
def getField : Json → String → Option Json
  | .obj fields, k => lookupField fields k
  | _, _ => none

/-- Property assignment on a field list (JS `o[k] = v`): if the key is
present its value is updated in place (keeping its position), otherwise the
new field is appended at the end, matching JS property-order semantics. -/
def setPair : List (String × Json) → String → Json → List (String × Json)
  | [], k, v => [(k, v)]
  | (k', v') :: rest, k, v =>
    if k' = k then (k, v) :: rest else (k', v') :: setPair rest k v

/-- Property assignment on a JSON value (JS `o.k = v`).  On non-objects the
value is returned unchanged: the only non-object case the contract can reach
is an array, where JS adds a non-index property that JSON serialization
ignores, so the no-op model is observationally exact. -/
def setField : Json → String → Json → Json
  | .obj fields, k, v => .obj (setPair fields k v)
  | j, _, _ => j

/-- Keys of an object's field list, in order. -/
def keysOf (l : List (String × Json)) : List String := l.map (fun kv => kv.1)

/-- Boolean check that the keys of a field list are pairwise distinct
(always true for a field list arising from a JS object). -/
def nodupKeys : List (String × Json) → Bool
  | [] => true
  | (k, _) :: rest => !(rest.any (fun kv => kv.1 == k)) && nodupKeys rest

end Json

/-! ## Lexicographic string comparison

JS compares strings code-unit-wise.  Lean's built-in `String` order does not
reduce in the kernel, so we use our own boolean lexicographic comparison on
the underlying character lists. -/

/-- Boolean lexicographic order on character lists, comparing character
codes (models the JS string order used to sort object keys). -/
def lexLeb : List Char → List Char → Bool
  | [], _ => true
  | _ :: _, [] => false
  | a :: as, b :: bs =>
    if a.toNat < b.toNat then true
    else if b.toNat < a.toNat then false
    else lexLeb as bs

/-- Boolean string order derived from `lexLeb`. -/
def strLeb (a b : String) : Bool := lexLeb a.data b.data

/-- Key order on object fields: ascending lexicographic order of key names. -/
def keyLe (p q : String × Json) : Prop := strLeb p.1 q.1 = true

instance : DecidableRel keyLe := fun _ _ => instDecidableEqBool _ _

/-! ## Plain JSON serialization (`JSON.stringify`)

Modelled from the spec: `JSON.stringify` is a host builtin.  It produces a
compact serialization (no insignificant whitespace) preserving the in-memory
field order, with strings quoted and escaped per standard JSON rules and
numbers in minimal decimal form. -/

/-- Decimal digit character. -/
def digitChar (d : Nat) : Char := Char.ofNat (48 + d)

/-- Lowercase hexadecimal digit character (as emitted by the JS escape
sequences). -/
def hexDigitChar (d : Nat) : Char :=
  if d < 10 then Char.ofNat (48 + d) else Char.ofNat (87 + d)

/-- Big-endian decimal digits of a positive number; the fuel argument (any
bound on the number itself) makes the recursion structural. -/
def natDigitsAux : Nat → Nat → List Char
  | _, 0 => []
  | 0, _ + 1 => []
  | fuel + 1, n + 1 => natDigitsAux fuel ((n + 1) / 10) ++ [digitChar ((n + 1) % 10)]

/-- Minimal decimal form of a natural number. -/
def natChars (n : Nat) : List Char := if n = 0 then ['0'] else natDigitsAux n n

/-- Minimal decimal form of an integer (JS number-to-string for integers). -/
def intChars (i : Int) : List Char :=
  if i < 0 then '-' :: natChars i.natAbs else natChars i.natAbs

/-- JSON escape of a single character, exactly as `JSON.stringify` emits it:
named escapes for quote, backslash and the common control characters, and
lowercase unicode escapes for the remaining control characters. -/
def escapeChar (c : Char) : List Char :=
  if c = '"' then ['\\', '"']
  else if c = '\\' then ['\\', '\\']
  else if c = '\x08' then ['\\', 'b']
  else if c = '\t' then ['\\', 't']
  else if c = '\n' then ['\\', 'n']
  else if c = '\x0c' then ['\\', 'f']
  else if c = '\r' then ['\\', 'r']
  else if c.toNat < 32 then
    ['\\', 'u', '0', '0', hexDigitChar (c.toNat / 16), hexDigitChar (c.toNat % 16)]
  else [c]

/-- Serialized form of a JSON string: quoted, with every character escaped
as needed. -/
def strChars (s : String) : List Char :=
  '"' :: (s.data.flatMap escapeChar) ++ ['"']

mutual

/-- Compact JSON serialization of a value, preserving field order
(the body of `JSON.stringify`). -/
def serializeVal : Json → List Char
  | .num n => intChars n
  | .str s => strChars s
  | .null => ['n', 'u', 'l', 'l']
  | .arr l => '[' :: serializeElems l ++ [']']
  | .bool true => ['t', 'r', 'u', 'e']
  | .obj l => '{' :: serializeFields l ++ ['}']
  | .bool false => ['f', 'a', 'l', 's', 'e']
termination_by structural j => j

/-- Comma-separated serialization of an element list. -/
def serializeElems : List Json → List Char
  | [] => []
  | [x] => serializeVal x
  | x :: y :: ys => serializeVal x ++ ',' :: serializeElems (y :: ys)
termination_by structural l => l

/-- Comma-separated serialization of a field list. -/
def serializeFields : List (String × Json) → List Char
  | [] => []
  | [(k, v)] => strChars k ++ ':' :: serializeVal v
  | (k, v) :: f :: fs => strChars k ++ ':' :: serializeVal v ++ ',' :: serializeFields (f :: fs)
termination_by structural l => l

end

/-- JS `JSON.stringify` (compact, field order preserved). -/
def serializeJson (j : Json) : String := String.mk (serializeVal j)

/-! ## Canonical key sorting (`sort-keys-recursive`) -/

mutual

/-- Modelled from the spec: the `sort-keys-recursive` dependency is not part
of the repository; per spec section 4.1 it recursively sorts the keys of the
record and of any nested mapping value in ascending lexicographic order,
while the ordering of array elements is preserved as given. -/
def sortKeysRecursive : Json → Json
  | .arr l => .arr (sortElemsRec l)
  | .obj l => .obj (List.insertionSort keyLe (sortFieldsRec l))
  | j => j
termination_by structural j => j

/-- Recursive key sorting inside each element of an array (order kept). -/
def sortElemsRec : List Json → List Json
  | [] => []
  | x :: xs => sortKeysRecursive x :: sortElemsRec xs
termination_by structural l => l

/-- Recursive key sorting inside the values of a field list. -/
def sortFieldsRec : List (String × Json) → List (String × Json)
  | [] => []
  | (k, v) :: rest => (k, sortKeysRecursive v) :: sortFieldsRec rest
termination_by structural l => l

end

/-- Modelled from the spec: the `json-stringify-deterministic` dependency is
not part of the repository; per spec section 4.1 it serializes with a
canonical (stable, whitespace-free, key-order-independent) encoding, i.e. it
sorts every object's keys while serializing compactly. -/
def stringify (j : Json) : String := serializeJson (sortKeysRecursive j)

/-- The composition `stringify(sortKeysRecursive(x))` applied by the contract
at every write (`assetTransfer.js` lines 68, 88, 117, 143). -/
def encode (j : Json) : String := stringify (sortKeysRecursive j)

/-! ## JSON parsing (`JSON.parse`)

Modelled from the spec: `JSON.parse` is a host builtin; the registry must be
able to parse a stored value back into an equivalent mapping, and a value
that is not valid JSON fails to decode.  The grammar below is standard JSON
restricted to integer numerals (the only numbers this contract produces). -/

/-- JSON whitespace characters. -/
def isWsChar (c : Char) : Bool := c = ' ' || c = '\t' || c = '\n' || c = '\r'

/-- Skip leading JSON whitespace. -/
def skipWs : List Char → List Char
  | [] => []
  | c :: cs => if isWsChar c then skipWs cs else c :: cs

/-- Decimal digit test on the character code. -/
def isDigitChar (c : Char) : Bool := 48 ≤ c.toNat && c.toNat ≤ 57

/-- Numeric value of a decimal digit character. -/
def digitVal (c : Char) : Nat := c.toNat - 48

/-- Consume a maximal run of decimal digits, folding them onto an
accumulator. -/
def parseDigits : List Char → Nat → Nat × List Char
  | [], acc => (acc, [])
  | c :: cs, acc =>
    if isDigitChar c then parseDigits cs (acc * 10 + digitVal c) else (acc, c :: cs)

/-- Parse a JSON natural numeral.  Per the JSON grammar a leading `0` is the
whole integer part, and at least one digit is required. -/
def parseNat : List Char → Option (Nat × List Char)
  | [] => none
  | c :: cs =>
    if c = '0' then some (0, cs)
    else if isDigitChar c then some (parseDigits cs (digitVal c))
    else none

/-- Value of a hexadecimal digit character (both cases accepted, as in
`JSON.parse` unicode escapes). -/
def hexVal (c : Char) : Option Nat :=
  if 48 ≤ c.toNat ∧ c.toNat ≤ 57 then some (c.toNat - 48)
  else if 97 ≤ c.toNat ∧ c.toNat ≤ 102 then some (c.toNat - 87)
  else if 65 ≤ c.toNat ∧ c.toNat ≤ 70 then some (c.toNat - 55)
  else none

/-- Single-character JSON escapes accepted after a backslash. -/
def escCharInv : Char → Option Char
  | '"' => some '"'
  | '\\' => some '\\'
  | '/' => some '/'
  | 'b' => some '\x08'
  | 'f' => some '\x0c'
  | 'n' => some '\n'
  | 'r' => some '\r'
  | 't' => some '\t'
  | _ => none

/-- Combined value of four hexadecimal digit characters. -/
def hex4 (h1 h2 h3 h4 : Char) : Option Nat := do
  let v1 ← hexVal h1
  let v2 ← hexVal h2
  let v3 ← hexVal h3
  let v4 ← hexVal h4
  pure (((v1 * 16 + v2) * 16 + v3) * 16 + v4)

/-- Parse the body of a JSON string after the opening quote, returning the
decoded characters and the input remaining after the closing quote.
Unescaped control characters are rejected, as in `JSON.parse`. -/
def parseStrBody : List Char → Option (List Char × List Char)
  | [] => none
  | c :: rest =>
    if c = '"' then some ([], rest)
    else if c = '\\' then
      match rest with
      | 'u' :: h1 :: h2 :: h3 :: h4 :: rest' =>
        match hex4 h1 h2 h3 h4 with
        | none => none
        | some v =>
          match parseStrBody rest' with
          | none => none
          | some (b, r) => some (Char.ofNat v :: b, r)
      | e :: rest' =>
        match escCharInv e with
        | none => none
        | some d =>
          match parseStrBody rest' with
          | none => none
          | some (b, r) => some (d :: b, r)
      | [] => none
    else if c.toNat < 32 then none
    else
      match parseStrBody rest with
      | none => none
      | some (b, r) => some (c :: b, r)

/-- Match an expected literal tail (such as `ull` after `n`), returning the
remaining input. -/
def expectLit : List Char → List Char → Option (List Char)
  | [], cs => some cs
  | _ :: _, [] => none
  | e :: es, c :: cs => if c = e then expectLit es cs else none

mutual

/-- Parse one JSON value (the body of `JSON.parse`).  The fuel argument
makes the nesting recursion structural; since every recursive call consumes
at least one input character, a fuel of one more than the input length never
runs out. -/
def parseVal : Nat → List Char → Option (Json × List Char)
  | 0, _ => none
  | fuel + 1, cs =>
    match skipWs cs with
    | [] => none
    | c :: rest =>
      if c = 'n' then (expectLit ['u', 'l', 'l'] rest).map (fun r => (.null, r))
      else if c = 't' then (expectLit ['r', 'u', 'e'] rest).map (fun r => (.bool true, r))
      else if c = 'f' then (expectLit ['a', 'l', 's', 'e'] rest).map (fun r => (.bool false, r))
      else if c = '"' then (parseStrBody rest).map (fun p => (.str (String.mk p.1), p.2))
      else if c = '-' then (parseNat rest).map (fun p => (.num (-(p.1 : Int)), p.2))
      else if c = '[' then
        match skipWs rest with
        | [] => none
        | d :: r2 =>
          if d = ']' then some (.arr [], r2)
          else
            match parseElems fuel (d :: r2) with
            | none => none
            | some (l, r3) => some (.arr l, r3)
      else if c = '{' then
        match skipWs rest with
        | [] => none
        | d :: r2 =>
          if d = '}' then some (.obj [], r2)
          else
            match parseFields fuel (d :: r2) with
            | none => none
            | some (l, r3) => some (.obj l, r3)
      else if isDigitChar c then (parseNat (c :: rest)).map (fun p => (.num (p.1 : Int), p.2))
      else none

/-- Parse the comma-separated elements of a non-empty array, consuming the
closing bracket. -/
def parseElems : Nat → List Char → Option (List Json × List Char)
  | 0, _ => none
  | fuel + 1, cs =>
    match parseVal fuel cs with
    | none => none
    | some (v, rest) =>
      match skipWs rest with
      | [] => none
      | d :: r2 =>
        if d = ',' then
          match parseElems fuel r2 with
          | none => none
          | some (l, r3) => some (v :: l, r3)
        else if d = ']' then some ([v], r2)
        else none

/-- Parse the comma-separated fields of a non-empty object, consuming the
closing brace. -/
def parseFields : Nat → List Char → Option (List (String × Json) × List Char)
  | 0, _ => none
  | fuel + 1, cs =>
    match skipWs cs with
    | [] => none
    | c :: rest =>
      if c = '"' then
        match parseStrBody rest with
        | none => none
        | some (k, r1) =>
          match skipWs r1 with
          | [] => none
          | d :: r2 =>
            if d = ':' then
              match parseVal fuel r2 with
              | none => none
              | some (v, r3) =>
                match skipWs r3 with
                | [] => none
                | e :: r4 =>
                  if e = ',' then
                    match parseFields fuel r4 with
                    | none => none
                    | some (l, r5) => some ((String.mk k, v) :: l, r5)
                  else if e = '}' then some ([(String.mk k, v)], r4)
                  else none
            else none
      else none

end

/-- JS `JSON.parse`: parse a complete JSON text (surrounding whitespace
allowed); `none` models a thrown `SyntaxError`. -/
def parseJson (s : String) : Option Json :=
  match parseVal (s.length + 1) s.data with
  | some (j, rest) => if skipWs rest = [] then some j else none
  | none => none

/-! ## The world state store

The Fabric world state keeps keys in ascending lexicographic order and
`getStateByRange('', '')` iterates the whole namespace in that order, so the
store is modelled as a key-sorted association list from keys to the stored
value strings (the UTF-8 text of the stored bytes). -/

/-- World state: association list from keys to stored value strings. -/
abbrev Store := List (String × String)

/-- `ctx.stub.getState(key)`: the stored value, or `none` when absent. -/
def getState (s : Store) (k : String) : Option String :=
  (s.find? (fun kv => kv.1 == k)).map (fun kv => kv.2)

/-- `ctx.stub.putState(key, value)`: store a value under a key, replacing
any previous value and keeping the association list key-sorted. -/
def putState : Store → String → String → Store
  | [], k, v => [(k, v)]
  | (k', v') :: rest, k, v =>
    if k = k' then (k, v) :: rest
    else if strLeb k k' then (k, v) :: (k', v') :: rest
    else (k', v') :: putState rest k v

/-- `ctx.stub.deleteState(key)`: remove a key from the store. -/
def deleteState (s : Store) (k : String) : Store :=
  s.filter (fun kv => kv.1 != k)

/-- Errors thrown by the transaction handlers: the two existence errors
thrown by the contract itself, plus the JS errors that `TransferAsset` can
propagate from `JSON.parse` (SyntaxError) or from a strict-mode property
assignment on a primitive (TypeError). -/
inductive CCError where
  | alreadyExists (id : String)
  | notFound (id : String)
  | syntaxError
  | typeError
deriving Repr, DecidableEq

instance {ε α : Type} [DecidableEq ε] [DecidableEq α] : DecidableEq (Except ε α) := fun a b =>
  match a, b with
  | .ok x, .ok y => decidable_of_iff (x = y) (by simp)
  | .error x, .error y => decidable_of_iff (x = y) (by simp)
  | .ok _, .error _ => isFalse (by simp)
  | .error _, .ok _ => isFalse (by simp)

/-- Message of the errors the contract itself constructs
(`new Error(...)` in `CreateAsset` and the existence checks). -/
def CCError.message : CCError → String
  | .alreadyExists id => "The asset " ++ id ++ " already exists"
  | .notFound id => "The asset " ++ id ++ " does not exist"
  | .syntaxError => "SyntaxError"
  | .typeError => "TypeError"

/-! ## The transaction handlers (`assetTransfer.js`) -/

/-- `AssetExists` (lines 130-133): true when a non-empty value is stored
under the id. -/
def assetExists (s : Store) (id : String) : Bool :=
  match getState s id with
  | some v => decide (0 < v.length)
  | none => false

/-- The asset record literal built by `CreateAsset` and `UpdateAsset`
(fields in source order: id, game_name, owner_name, owner_type,
game_value). -/
def mkAsset (id gameName ownerName ownerType : String) (gameValue : Json) : Json :=
  .obj [("id", .str id), ("game_name", .str gameName), ("owner_name", .str ownerName),
        ("owner_type", .str ownerType), ("game_value", gameValue)]

/-- `CreateAsset` (lines 73-90): fails when the id exists, otherwise writes
the canonical encoding and returns `JSON.stringify(asset)`. -/
def createAsset (s : Store) (id gameName ownerName ownerType : String)
    (gameValue : Json) : Except CCError (String × Store) :=
  if assetExists s id then .error (.alreadyExists id)
  else
    let asset := mkAsset id gameName ownerName ownerType gameValue
    .ok (serializeJson asset, putState s id (encode asset))

/-- `ReadAsset` (lines 93-99): fails when the value is missing or empty,
otherwise returns the stored text verbatim. -/
def readAsset (s : Store) (id : String) : Except CCError String :=
  match getState s id with
  | none => .error (.notFound id)
  | some v => if v.length = 0 then .error (.notFound id) else .ok v

/-- `UpdateAsset` (lines 102-118): fails when the id does not exist,
otherwise overwrites the record with one built only from the parameters. -/
def updateAsset (s : Store) (id gameName ownerName ownerType : String)
    (gameValue : Json) : Except CCError Store :=
  if assetExists s id then
    .ok (putState s id (encode (mkAsset id gameName ownerName ownerType gameValue)))
  else .error (.notFound id)

/-- `DeleteAsset` (lines 121-127): fails when the id does not exist,
otherwise removes the key. -/
def deleteAsset (s : Store) (id : String) : Except CCError Store :=
  if assetExists s id then .ok (deleteState s id) else .error (.notFound id)

/-- Return value of `TransferAsset`: `JSON.stringify({ oldOwnerName })`,
where an `undefined` old owner is dropped by `JSON.stringify`. -/
def transferRet : Option Json → String
  | some ov => serializeJson (.obj [("oldOwnerName", ov)])
  | none => serializeJson (.obj [])

/-- `TransferAsset` (lines 136-146): reads through `ReadAsset`, decodes the
record, captures `owner_name`, replaces it with the new owner, re-encodes
canonically and writes; returns `JSON.stringify({ oldOwnerName })`.  On a
decoded array the property assignment adds a non-index property that the
re-encoding ignores; on a decoded primitive the strict-mode assignment
throws a TypeError. -/
def transferAsset (s : Store) (id newOwnerName : String) :
    Except CCError (String × Store) :=
  match readAsset s id with
  | .error e => .error e
  | .ok assetString =>
    match parseJson assetString with
    | none => .error .syntaxError
    | some (.obj fields) =>
      let oldOwnerName := Json.lookupField fields "owner_name"
      let newAsset := Json.obj (Json.setPair fields "owner_name" (.str newOwnerName))
      .ok (transferRet oldOwnerName, putState s id (encode newAsset))
    | some (.arr xs) =>
      .ok (transferRet none, putState s id (encode (.arr xs)))
    | some _ => .error .typeError

/-- Decoded entry of `GetAllAssets` for one stored value: the parsed JSON
record, or the raw string when decoding fails. -/
def recordOf (v : String) : Json :=
  match parseJson v with
  | some r => r
  | none => .str v

/-- `GetAllAssets` (lines 149-167) before the final serialization: one entry
per stored key-value pair, in scan order. -/
def getAllRecords (s : Store) : List Json := s.map (fun kv => recordOf kv.2)

/-- `GetAllAssets` (lines 149-167): scan the whole namespace and return
`JSON.stringify(allResults)`. -/
def getAllAssets (s : Store) : String := serializeJson (.arr (getAllRecords s))

/-- The seed asset literals of `InitLedger` (lines 17-59), in source order. -/
def initAssets : List Json :=
  [ mkAsset "asset1" "game1" "Tomoko" "player" (.num 300),
    mkAsset "asset2" "game2" "Brad" "player" (.num 400),
    mkAsset "asset3" "game3" "Jin Soo" "player" (.num 500),
    mkAsset "asset4" "game4" "Max" "player" (.num 600),
    mkAsset "asset5" "game5" "Adriana" "player" (.num 700),
    mkAsset "asset6" "game6" "Michel" "player" (.num 800) ]

/-- JS `asset.id` as a string (every seed asset carries a string id). -/
def Json.idString : Json → String
  | .obj fields =>
    match Json.lookupField fields "id" with
    | some (.str s) => s
    | _ => ""
  | _ => ""

/-- The seed assets after the loop body's `asset.docType = 'asset'`. -/
def preparedAssets : List Json :=
  initAssets.map (fun a => a.setField "docType" (.str "asset"))

/-- `InitLedger` (lines 16-70): write every seed asset, tagged with
`docType`, canonically encoded under its id. -/
def initLedger (s : Store) : Store :=
  preparedAssets.foldl (fun st a => putState st a.idString (encode a)) s

/-- Modelled from the spec: the underlying store's `putState` may fail with
a store error; the loop of `InitLedger` awaits each write in turn, so a
failing write aborts the loop, the error propagates, and the earlier writes
stay committed.  `fails` tells which keys' writes fail; the result is the
final store plus the key of the failing write, if any. -/
def initLedgerLoop (fails : String → Bool) : List Json → Store → Store × Option String
  | [], st => (st, none)
  | a :: rest, st =>
    if fails a.idString then (st, some a.idString)
    else initLedgerLoop fails rest (putState st a.idString (encode a))

/-- `InitLedger` run against a store whose writes may fail (see
`initLedgerLoop`). -/
def initLedgerWithFailures (fails : String → Bool) (s : Store) : Store × Option String :=
  initLedgerLoop fails preparedAssets s

/-! ## Operation sequences -/

/-- A write-performing transaction, with its arguments. -/
inductive Op where
  | initLedger
  | create (id gameName ownerName ownerType : String) (gameValue : Json)
  | update (id gameName ownerName ownerType : String) (gameValue : Json)
  | transfer (id newOwnerName : String)
  | delete (id : String)

/-- Effect of one transaction on the world state: a handler that throws
aborts its transaction, leaving the state unchanged. -/
def applyOp (s : Store) : Op → Store
  | .initLedger => initLedger s
  | .create id gameName ownerName ownerType gameValue =>
    match createAsset s id gameName ownerName ownerType gameValue with
    | .ok p => p.2
    | .error _ => s
  | .update id gameName ownerName ownerType gameValue =>
    match updateAsset s id gameName ownerName ownerType gameValue with
    | .ok st => st
    | .error _ => s
  | .transfer id newOwnerName =>
    match transferAsset s id newOwnerName with
    | .ok p => p.2
    | .error _ => s
  | .delete id =>
    match deleteAsset s id with
    | .ok st => st
    | .error _ => s

/-- World state reached by a sequence of transactions from an empty store. -/
def runOps (ops : List Op) : Store := ops.foldl applyOp []

/-! ## Auxiliary definitions for the statements and proofs -/

mutual

/-- Fuel sufficient for `parseVal` to parse the serialization of a value. -/
def fuelFor : Json → Nat
  | .arr l => 1 + fuelForElems l
  | .obj l => 1 + fuelForFields l
  | _ => 1
termination_by structural j => j

/-- Fuel sufficient for `parseElems` on a serialized element list. -/
def fuelForElems : List Json → Nat
  | [] => 0
  | x :: xs => 1 + fuelFor x + fuelForElems xs
termination_by structural l => l

/-- Fuel sufficient for `parseFields` on a serialized field list. -/
def fuelForFields : List (String × Json) → Nat
  | [] => 0
  | (_, v) :: fs => 1 + fuelFor v + fuelForFields fs
termination_by structural l => l

end

/-- Input contexts in which a serialized value can stand: either the end of
the input or a separator/closer, never a character that could extend a
numeral. -/
def DelimOk (rest : List Char) : Prop :=
  rest = [] ∨ ∃ c cs, rest = c :: cs ∧ (c = ',' ∨ c = '}' ∨ c = ']')

/-- Boolean check that consecutive keys of a field list are in ascending
order. -/
def keysSortedB : List (String × Json) → Bool
  | [] => true
  | [_] => true
  | p :: q :: r => strLeb p.1 q.1 && keysSortedB (q :: r)

mutual

/-- Boolean check that every object in a JSON value, at any depth, has its
keys in ascending order. -/
def keysSortedDeep : Json → Bool
  | .arr l => elemsSortedDeep l
  | .obj l => keysSortedB l && fieldsSortedDeep l
  | _ => true
termination_by structural j => j

/-- Deep key-sortedness of every element of a list. -/
def elemsSortedDeep : List Json → Bool
  | [] => true
  | x :: xs => keysSortedDeep x && elemsSortedDeep xs
termination_by structural l => l

/-- Deep key-sortedness of every value of a field list. -/
def fieldsSortedDeep : List (String × Json) → Bool
  | [] => true
  | (_, v) :: fs => keysSortedDeep v && fieldsSortedDeep fs
termination_by structural l => l

end

/-- Field `k` of the decoded record stored under `id`, if any (what a
client sees for that field after `ReadAsset` plus `JSON.parse`). -/
def decodedField (s : Store) (id k : String) : Option Json :=
  match getState s id with
  | some v =>
    match parseJson v with
    | some j => j.getField k
    | none => none
  | none => none

/-- A record is present under an id exactly when a non-empty value is
stored there (the existence notion of the contract). -/
def present (s : Store) (id : String) : Prop :=
  ∃ v, getState s id = some v ∧ v ≠ ""

/-- A stored pair decodes to a JSON mapping whose `id` field equals the key
it is stored under. -/
def storedRecordOK (kv : String × String) : Prop :=
  ∃ fields, parseJson kv.2 = some (.obj fields) ∧
    Json.lookupField fields "id" = some (.str kv.1)

/-- Strengthened store invariant: every stored value is the canonical
encoding of a duplicate-free mapping whose `id` field is its key. -/
def storedCanonical (kv : String × String) : Prop :=
  ∃ fields, kv.2 = encode (.obj fields) ∧ Json.nodupKeys fields = true ∧
    Json.lookupField fields "id" = some (.str kv.1)

/-! ## Lemmas: character codes and the lexicographic order -/

theorem charToNat_inj {a b : Char} (h : a.toNat = b.toNat) : a = b :=
  Char.eq_of_val_eq (UInt32.eq_of_val_eq (Fin.eq_of_val_eq h))

theorem lexLeb_total : ∀ a b : List Char, lexLeb a b = true ∨ lexLeb b a = true := by
  intro a
  induction a with
  | nil => intro b; left; simp [lexLeb]
  | cons x xs ih =>
    intro b
    cases b with
    | nil => right; simp [lexLeb]
    | cons y ys =>
      by_cases h1 : x.toNat < y.toNat
      · left; simp [lexLeb, h1]
      · by_cases h2 : y.toNat < x.toNat
        · right; simp [lexLeb, h1, h2]
        · have hx : x.toNat = y.toNat := by omega
          rcases ih ys with h | h
          · left; simp [lexLeb, h1, h2, h]
          · right; simp [lexLeb, hx, h]

theorem lexLeb_trans : ∀ a b c : List Char,
    lexLeb a b = true → lexLeb b c = true → lexLeb a c = true := by
  intro a
  induction a with
  | nil => intro b c _ _; simp [lexLeb]
  | cons x xs ih =>
    intro b c hab hbc
    cases b with
    | nil => simp [lexLeb] at hab
    | cons y ys =>
      cases c with
      | nil => simp [lexLeb] at hbc
      | cons z zs =>
        simp only [lexLeb] at hab hbc ⊢
        by_cases h1 : x.toNat < y.toNat
        · by_cases h2 : y.toNat < z.toNat
          · have : x.toNat < z.toNat := by omega
            simp [this]
          · by_cases h3 : z.toNat < y.toNat
            · simp [h2, h3] at hbc
            · have : x.toNat < z.toNat := by omega
              simp [this]
        · by_cases h4 : y.toNat < x.toNat
          · simp [h1, h4] at hab
          · have hxy : x.toNat = y.toNat := by omega
            by_cases h2 : y.toNat < z.toNat
            · have : x.toNat < z.toNat := by omega
              simp [this]
            · by_cases h3 : z.toNat < y.toNat
              · simp [h2, h3] at hbc
              · have h5 : ¬ x.toNat < z.toNat := by omega
                have h6 : ¬ z.toNat < x.toNat := by omega
                simp only [h1, h4, if_false, if_neg h5, if_neg h6] at hab ⊢
                simp only [h2, h3, if_false] at hbc
                exact ih ys zs hab hbc

theorem lexLeb_antisymm : ∀ a b : List Char,
    lexLeb a b = true → lexLeb b a = true → a = b := by
  intro a
  induction a with
  | nil => intro b _ hba; cases b with
    | nil => rfl
    | cons y ys => simp [lexLeb] at hba
  | cons x xs ih =>
    intro b hab hba
    cases b with
    | nil => simp [lexLeb] at hab
    | cons y ys =>
      simp only [lexLeb] at hab hba
      by_cases h1 : x.toNat < y.toNat
      · have h2 : ¬ y.toNat < x.toNat := by omega
        simp [h1, h2] at hba
      · by_cases h2 : y.toNat < x.toNat
        · simp [h1, h2] at hab
        · have hx : x = y := charToNat_inj (by omega)
          simp only [h1, h2, if_false] at hab hba
          rw [hx, ih ys hab hba]

theorem strLeb_total (a b : String) : strLeb a b = true ∨ strLeb b a = true :=
  lexLeb_total a.data b.data

theorem strLeb_trans {a b c : String} (h1 : strLeb a b = true) (h2 : strLeb b c = true) :
    strLeb a c = true :=
  lexLeb_trans a.data b.data c.data h1 h2

theorem string_data_inj {a b : String} (h : a.data = b.data) : a = b := by
  cases a; cases b; exact congrArg String.mk h

theorem strLeb_antisymm {a b : String} (h1 : strLeb a b = true) (h2 : strLeb b a = true) :
    a = b :=
  string_data_inj (lexLeb_antisymm a.data b.data h1 h2)

instance : IsTotal (String × Json) keyLe :=
  ⟨fun a b => strLeb_total a.1 b.1⟩

instance : IsTrans (String × Json) keyLe :=
  ⟨fun _ _ _ h1 h2 => strLeb_trans h1 h2⟩

/-! ## Lemmas: the store -/

theorem getState_nil (k : String) : getState [] k = none := rfl

theorem getState_cons (k' v' : String) (s : Store) (k : String) :
    getState ((k', v') :: s) k = if k' = k then some v' else getState s k := by
  simp only [getState, List.find?]
  by_cases h : k' = k
  · simp [h]
  · simp [h, beq_eq_false_iff_ne.mpr h]

theorem getState_putState_self (s : Store) (k v : String) :
    getState (putState s k v) k = some v := by
  induction s with
  | nil => simp [putState, getState_cons]
  | cons p rest ih =>
    obtain ⟨k', v'⟩ := p
    simp only [putState]
    split_ifs with h1 h2
    · simp [getState_cons]
    · simp [getState_cons]
    · rw [getState_cons, if_neg (fun hh => h1 hh.symm), ih]

theorem getState_putState_ne (s : Store) (k v k'' : String) (h : k'' ≠ k) :
    getState (putState s k v) k'' = getState s k'' := by
  induction s with
  | nil =>
    simp only [putState]
    rw [getState_cons, if_neg (fun hh => h hh.symm)]
  | cons p rest ih =>
    obtain ⟨k', v'⟩ := p
    simp only [putState]
    split_ifs with h1 h2
    · subst h1
      rw [getState_cons, getState_cons, if_neg (fun hh => h hh.symm),
        if_neg (fun hh => h hh.symm)]
    · rw [getState_cons, if_neg (fun hh => h hh.symm)]
    · rw [getState_cons, getState_cons]
      by_cases h3 : k' = k''
      · simp [h3]
      · simp only [if_neg h3]
        exact ih

theorem length_putState_of_absent (s : Store) (k v : String)
    (h : getState s k = none) : (putState s k v).length = s.length + 1 := by
  induction s with
  | nil => simp [putState]
  | cons p rest ih =>
    obtain ⟨k', v'⟩ := p
    rw [getState_cons] at h
    by_cases h1 : k' = k
    · simp [h1] at h
    · simp only [if_neg h1] at h
      simp only [putState]
      split_ifs with h2 h3
      · exact absurd h2.symm h1
      · simp
      · simp [ih h]

theorem mem_putState {s : Store} {k v : String} {p : String × String}
    (h : p ∈ putState s k v) : p = (k, v) ∨ p ∈ s := by
  induction s with
  | nil => simp [putState] at h; simp [h]
  | cons q rest ih =>
    obtain ⟨k', v'⟩ := q
    simp only [putState] at h
    split_ifs at h with h1 h2
    · rcases List.mem_cons.mp h with h | h
      · left; exact h
      · right; simp [h]
    · rcases List.mem_cons.mp h with h | h
      · left; exact h
      · right; exact h
    · rcases List.mem_cons.mp h with h | h
      · right; simp [h]
      · rcases ih h with h | h
        · left; exact h
        · right; simp [h]

theorem deleteState_cons (k' v' k : String) (s : Store) :
    deleteState ((k', v') :: s) k =
      if k' = k then deleteState s k else (k', v') :: deleteState s k := by
  simp only [deleteState, List.filter_cons]
  by_cases h : k' = k
  · simp [h]
  · simp [h]

theorem getState_deleteState_self (s : Store) (k : String) :
    getState (deleteState s k) k = none := by
  induction s with
  | nil => rfl
  | cons p rest ih =>
    obtain ⟨k', v'⟩ := p
    rw [deleteState_cons]
    by_cases h : k' = k
    · simpa [h] using ih
    · rw [if_neg h, getState_cons, if_neg h]
      exact ih

theorem getState_deleteState_ne (s : Store) (k k'' : String) (h : k'' ≠ k) :
    getState (deleteState s k) k'' = getState s k'' := by
  induction s with
  | nil => rfl
  | cons p rest ih =>
    obtain ⟨k', v'⟩ := p
    rw [deleteState_cons]
    by_cases h1 : k' = k
    · have hne : ¬ k' = k'' := fun hh => h (hh.symm.trans h1)
      rw [if_pos h1, ih, getState_cons, if_neg hne]
    · rw [if_neg h1, getState_cons, getState_cons]
      by_cases h2 : k' = k''
      · simp [h2]
      · simp only [if_neg h2]
        exact ih

/-! ## Lemmas: field lookup and key uniqueness -/

theorem nodupKeys_iff_pairwise {l : List (String × Json)} :
    Json.nodupKeys l = true ↔ List.Pairwise (fun a b => a.1 ≠ b.1) l := by
  induction l with
  | nil => simp [Json.nodupKeys]
  | cons p rest ih =>
    obtain ⟨k, v⟩ := p
    simp only [Json.nodupKeys, Bool.and_eq_true, Bool.not_eq_true', List.any_eq_false,
      List.pairwise_cons, ih, beq_iff_eq, ne_eq]
    constructor
    · rintro ⟨h1, h2⟩
      exact ⟨fun q hq hk => h1 q hq hk.symm, h2⟩
    · rintro ⟨h1, h2⟩
      exact ⟨fun q hq hk => h1 q hq hk.symm, h2⟩

theorem nodupKeys_of_perm {l l' : List (String × Json)} (hp : l.Perm l')
    (h : Json.nodupKeys l = true) : Json.nodupKeys l' = true := by
  rw [nodupKeys_iff_pairwise] at h ⊢
  exact (hp.pairwise_iff (fun hab => hab.symm)).mp h

theorem lookupField_mem {l : List (String × Json)} {k : String} {v : Json}
    (h : Json.lookupField l k = some v) : (k, v) ∈ l := by
  induction l with
  | nil => simp [Json.lookupField] at h
  | cons p rest ih =>
    obtain ⟨k', v'⟩ := p
    simp only [Json.lookupField] at h
    by_cases h1 : k' = k
    · simp only [if_pos h1, Option.some.injEq] at h
      exact List.mem_cons.mpr (Or.inl (by simp [h1, h]))
    · simp only [if_neg h1] at h
      exact List.mem_cons.mpr (Or.inr (ih h))

theorem lookupField_of_mem_nodup {l : List (String × Json)} {k : String} {v : Json}
    (hnd : Json.nodupKeys l = true) (h : (k, v) ∈ l) :
    Json.lookupField l k = some v := by
  induction l with
  | nil => simp at h
  | cons p rest ih =>
    obtain ⟨k', v'⟩ := p
    rw [nodupKeys_iff_pairwise, List.pairwise_cons] at hnd
    obtain ⟨hhead, htail⟩ := hnd
    rcases List.mem_cons.mp h with h | h
    · have h1 : k = k' := congrArg Prod.fst h
      have h2 : v = v' := congrArg Prod.snd h
      rw [← h1, ← h2]
      simp [Json.lookupField]
    · have hk : k' ≠ k := by
        have := hhead (k, v) h
        simpa using this
      simp only [Json.lookupField, if_neg hk]
      exact ih (nodupKeys_iff_pairwise.mpr htail) h

theorem lookupField_none_iff {l : List (String × Json)} {k : String} :
    Json.lookupField l k = none ↔ ∀ v, (k, v) ∉ l := by
  induction l with
  | nil => simp [Json.lookupField]
  | cons p rest ih =>
    obtain ⟨k', v'⟩ := p
    simp only [Json.lookupField, List.mem_cons]
    by_cases h1 : k' = k
    · simp only [if_pos h1]
      constructor
      · intro h; cases h
      · intro h
        exact absurd (Or.inl (by simp [h1])) (h v').elim
    · simp only [if_neg h1, ih]
      constructor
      · intro h v
        rintro (hv | hv)
        · exact h1 (congrArg Prod.fst hv).symm
        · exact h v hv
      · intro h v hv
        exact h v (Or.inr hv)

theorem lookupField_perm {l l' : List (String × Json)} {k : String}
    (hnd : Json.nodupKeys l = true) (hp : l.Perm l') :
    Json.lookupField l' k = Json.lookupField l k := by
  cases hlk : Json.lookupField l k with
  | some v =>
    exact lookupField_of_mem_nodup (nodupKeys_of_perm hp hnd)
      (hp.mem_iff.mp (lookupField_mem hlk))
  | none =>
    rw [lookupField_none_iff] at hlk ⊢
    intro v hv
    exact hlk v (hp.mem_iff.mpr hv)

/-! ## Lemmas: sortedness and permutations -/

theorem sorted_perm_nodup_eq : ∀ l₁ l₂ : List (String × Json),
    List.Sorted keyLe l₁ → List.Sorted keyLe l₂ → Json.nodupKeys l₁ = true →
    l₁.Perm l₂ → l₁ = l₂ := by
  intro l₁
  induction l₁ with
  | nil => intro l₂ _ _ _ hp; exact (hp.symm.eq_nil).symm
  | cons a t₁ ih =>
    intro l₂ hs₁ hs₂ hnd hp
    cases l₂ with
    | nil => exact absurd hp.eq_nil (by simp)
    | cons b t₂ =>
      by_cases hab : a = b
      · subst hab
        rw [List.sorted_cons] at hs₁ hs₂
        rw [nodupKeys_iff_pairwise, List.pairwise_cons] at hnd
        have ht := ih t₂ hs₁.2 hs₂.2
          (nodupKeys_iff_pairwise.mpr hnd.2) (hp.cons_inv)
        rw [ht]
      · exfalso
        have hbmem : b ∈ a :: t₁ := hp.mem_iff.mpr (List.mem_cons_self b t₂)
        have hbt₁ : b ∈ t₁ := by
          rcases List.mem_cons.mp hbmem with h | h
          · exact absurd h.symm hab
          · exact h
        have hamem : a ∈ b :: t₂ := hp.mem_iff.mp (List.mem_cons_self a t₁)
        have hat₂ : a ∈ t₂ := by
          rcases List.mem_cons.mp hamem with h | h
          · exact absurd h hab
          · exact h
        rw [List.sorted_cons] at hs₁ hs₂
        have h1 : strLeb a.1 b.1 = true := hs₁.1 b hbt₁
        have h2 : strLeb b.1 a.1 = true := hs₂.1 a hat₂
        have hkey : a.1 = b.1 := strLeb_antisymm h1 h2
        rw [nodupKeys_iff_pairwise, List.pairwise_cons] at hnd
        exact hnd.1 b hbt₁ hkey

/-! ## Lemmas: recursive key sorting -/

theorem sortFieldsRec_eq_map (l : List (String × Json)) :
    sortFieldsRec l = l.map (fun kv => (kv.1, sortKeysRecursive kv.2)) := by
  induction l with
  | nil => rfl
  | cons p rest ih =>
    obtain ⟨k, v⟩ := p
    simp [sortFieldsRec, ih]

theorem sortElemsRec_eq_map (l : List Json) :
    sortElemsRec l = l.map sortKeysRecursive := by
  induction l with
  | nil => rfl
  | cons x xs ih => simp [sortElemsRec, ih]

theorem nodupKeys_sortFieldsRec (l : List (String × Json)) :
    Json.nodupKeys (sortFieldsRec l) = Json.nodupKeys l := by
  rw [sortFieldsRec_eq_map]
  by_cases h : Json.nodupKeys l = true
  · rw [h, nodupKeys_iff_pairwise, List.pairwise_map]
    rw [nodupKeys_iff_pairwise] at h
    exact h.imp (fun hab => hab)
  · rw [Bool.eq_false_iff.mpr h]
    rw [Bool.eq_false_iff]
    intro hc
    apply h
    rw [nodupKeys_iff_pairwise, List.pairwise_map] at hc
    rw [nodupKeys_iff_pairwise]
    exact hc.imp (fun hab => hab)

theorem sortFieldsRec_eq_self_of {l : List (String × Json)}
    (h : ∀ p ∈ l, sortKeysRecursive p.2 = p.2) : sortFieldsRec l = l := by
  induction l with
  | nil => rfl
  | cons p rest ih =>
    obtain ⟨k, v⟩ := p
    simp only [sortFieldsRec]
    rw [h (k, v) (List.mem_cons_self _ _), ih (fun q hq => h q (List.mem_cons_of_mem _ hq))]

mutual

theorem sortKeysRecursive_idem : ∀ j : Json,
    sortKeysRecursive (sortKeysRecursive j) = sortKeysRecursive j
  | .null => rfl
  | .bool _ => rfl
  | .num _ => rfl
  | .str _ => rfl
  | .arr l => by
    simp only [sortKeysRecursive]
    rw [sortElemsRec_idem l]
  | .obj l => by
    simp only [sortKeysRecursive]
    have h1 : ∀ p ∈ List.insertionSort keyLe (sortFieldsRec l),
        sortKeysRecursive p.2 = p.2 := fun p hp =>
      sortFieldsRec_val_idem l p ((List.perm_insertionSort keyLe _).mem_iff.mp hp)
    rw [sortFieldsRec_eq_self_of h1,
      List.Sorted.insertionSort_eq (List.sorted_insertionSort keyLe _)]
termination_by structural j => j

theorem sortElemsRec_idem : ∀ l : List Json,
    sortElemsRec (sortElemsRec l) = sortElemsRec l
  | [] => rfl
  | x :: xs => by
    simp only [sortElemsRec]
    rw [sortKeysRecursive_idem x, sortElemsRec_idem xs]
termination_by structural l => l

theorem sortFieldsRec_val_idem : ∀ (l : List (String × Json)) (p : String × Json),
    p ∈ sortFieldsRec l → sortKeysRecursive p.2 = p.2
  | [], p => by simp [sortFieldsRec]
  | (k, v) :: rest, p => by
    simp only [sortFieldsRec, List.mem_cons]
    rintro (h | h)
    · rw [h]
      exact sortKeysRecursive_idem v
    · exact sortFieldsRec_val_idem rest p h
termination_by structural l => l

end

theorem encode_eq_serialize_sortRec (j : Json) :
    encode j = serializeJson (sortKeysRecursive j) := by
  unfold encode stringify
  rw [sortKeysRecursive_idem]

theorem sortRec_obj_perm {l l' : List (String × Json)} (hp : l.Perm l')
    (hnd : Json.nodupKeys l = true) :
    sortKeysRecursive (.obj l) = sortKeysRecursive (.obj l') := by
  simp only [sortKeysRecursive]
  congr 1
  apply sorted_perm_nodup_eq
  · exact List.sorted_insertionSort keyLe _
  · exact List.sorted_insertionSort keyLe _
  · exact nodupKeys_of_perm (List.perm_insertionSort keyLe _).symm
      ((nodupKeys_sortFieldsRec l).symm ▸ hnd)
  · refine List.Perm.trans (List.perm_insertionSort keyLe _)
      (List.Perm.trans ?_ (List.perm_insertionSort keyLe _).symm)
    rw [sortFieldsRec_eq_map, sortFieldsRec_eq_map]
    exact hp.map _

theorem encode_obj_perm {l l' : List (String × Json)} (hp : l.Perm l')
    (hnd : Json.nodupKeys l = true) : encode (.obj l) = encode (.obj l') := by
  rw [encode_eq_serialize_sortRec, encode_eq_serialize_sortRec,
    sortRec_obj_perm hp hnd]

theorem getState_mem {s : Store} {k v : String} (h : getState s k = some v) :
    (k, v) ∈ s := by
  induction s with
  | nil => simp [getState] at h
  | cons p rest ih =>
    obtain ⟨k', v'⟩ := p
    rw [getState_cons] at h
    by_cases h1 : k' = k
    · simp only [h1, if_true, Option.some.injEq] at h
      exact List.mem_cons.mpr (Or.inl (by simp [h1, h]))
    · simp only [if_neg h1] at h
      right
      exact ih h

/-! ## Lemmas: decimal numerals -/

theorem digitVal_digitChar {d : Nat} (h : d < 10) : digitVal (digitChar d) = d := by
  interval_cases d <;> decide

theorem isDigitChar_digitChar {d : Nat} (h : d < 10) : isDigitChar (digitChar d) = true := by
  interval_cases d <;> decide

theorem digitChar_ne_zeroChar {d : Nat} (h1 : 1 ≤ d) (h2 : d < 10) : digitChar d ≠ '0' := by
  interval_cases d <;> decide

/-- The decimal digit string of a positive number: nonempty, all digits,
no leading zero, and folding the digits back gives the number. -/
theorem natDigitsAux_spec : ∀ fuel n, 1 ≤ n → n ≤ fuel →
    ∃ c cs, natDigitsAux fuel n = c :: cs ∧ isDigitChar c = true ∧ c ≠ '0' ∧
      (∀ x ∈ c :: cs, isDigitChar x = true) ∧
      List.foldl (fun a x => a * 10 + digitVal x) 0 (c :: cs) = n := by
  intro fuel
  induction fuel with
  | zero => intro n h1 h2; omega
  | succ fuel ih =>
    intro n h1 h2
    obtain ⟨m, rfl⟩ : ∃ m, n = m + 1 := ⟨n - 1, by omega⟩
    have hmod : (m + 1) % 10 < 10 := Nat.mod_lt _ (by norm_num)
    have hdm := Nat.div_add_mod (m + 1) 10
    by_cases hq : (m + 1) / 10 = 0
    · have hlt : m + 1 < 10 := by omega
      have heq : natDigitsAux (fuel + 1) (m + 1) = [digitChar ((m + 1) % 10)] := by
        simp [natDigitsAux, hq]
      refine ⟨digitChar ((m + 1) % 10), [], heq, isDigitChar_digitChar hmod, ?_, ?_, ?_⟩
      · exact digitChar_ne_zeroChar (by omega) hmod
      · intro x hx
        simp only [List.mem_singleton] at hx
        rw [hx]
        exact isDigitChar_digitChar hmod
      · simp only [List.foldl_cons, List.foldl_nil]
        rw [digitVal_digitChar hmod]
        omega
    · have hq1 : 1 ≤ (m + 1) / 10 := by omega
      have hqle : (m + 1) / 10 ≤ fuel := by
        have := Nat.div_lt_self (show 0 < m + 1 by omega) (show 1 < 10 by norm_num)
        omega
      obtain ⟨c, cs, heq, hdig, hnz, hall, hfold⟩ := ih ((m + 1) / 10) hq1 hqle
      refine ⟨c, cs ++ [digitChar ((m + 1) % 10)], ?_, hdig, hnz, ?_, ?_⟩
      · simp only [natDigitsAux, heq]
        rfl
      · intro x hx
        rcases List.mem_cons.mp hx with hx | hx
        · rw [hx]; exact hdig
        · rcases List.mem_append.mp hx with hx | hx
          · exact hall x (List.mem_cons_of_mem _ hx)
          · simp only [List.mem_singleton] at hx
            rw [hx]
            exact isDigitChar_digitChar hmod
      · have : (c :: (cs ++ [digitChar ((m + 1) % 10)])) =
            (c :: cs) ++ [digitChar ((m + 1) % 10)] := by simp
        rw [this, List.foldl_append, hfold]
        simp only [List.foldl_cons, List.foldl_nil]
        rw [digitVal_digitChar hmod]
        omega

/-- The decimal form of any natural number starts with a digit. -/
theorem natChars_head : ∀ n, ∃ c cs, natChars n = c :: cs ∧ isDigitChar c = true := by
  intro n
  by_cases h : n = 0
  · exact ⟨'0', [], by simp [natChars, h], by decide⟩
  · obtain ⟨c, cs, heq, hdig, -, -, -⟩ := natDigitsAux_spec n n (by omega) le_rfl
    exact ⟨c, cs, by simp [natChars, h, heq], hdig⟩

theorem parseDigits_spec : ∀ ds rest acc, (∀ x ∈ ds, isDigitChar x = true) →
    (rest = [] ∨ ∃ c cs, rest = c :: cs ∧ isDigitChar c = false) →
    parseDigits (ds ++ rest) acc =
      (List.foldl (fun a x => a * 10 + digitVal x) acc ds, rest) := by
  intro ds
  induction ds with
  | nil =>
    intro rest acc _ hrest
    rcases hrest with rfl | ⟨c, cs, rfl, hc⟩
    · rfl
    · simp [parseDigits, hc]
  | cons d ds ih =>
    intro rest acc hall hrest
    have hd : isDigitChar d = true := hall d (List.mem_cons_self _ _)
    simp only [List.cons_append, parseDigits, hd, if_true, List.append_eq]
    rw [ih rest _ (fun x hx => hall x (List.mem_cons_of_mem _ hx)) hrest]
    rfl

theorem parseNat_natChars : ∀ n rest,
    (rest = [] ∨ ∃ c cs, rest = c :: cs ∧ isDigitChar c = false) →
    parseNat (natChars n ++ rest) = some (n, rest) := by
  intro n rest hrest
  by_cases h : n = 0
  · subst h
    simp only [natChars, if_pos rfl, List.cons_append, List.nil_append]
    simp [parseNat]
  · obtain ⟨c, cs, heq, hdig, hnz, hall, hfold⟩ := natDigitsAux_spec n n (by omega) le_rfl
    simp only [natChars, if_neg h, heq, List.cons_append]
    simp only [parseNat, if_neg hnz, hdig, if_true]
    rw [parseDigits_spec cs rest (digitVal c)
      (fun x hx => hall x (List.mem_cons_of_mem _ hx)) hrest]
    simp only [List.foldl_cons] at hfold
    rw [show (0 : Nat) * 10 + digitVal c = digitVal c by omega] at hfold
    rw [hfold]

/-! ## Lemmas: string escaping round-trip -/

theorem hexVal_hexDigitChar {d : Nat} (h : d < 16) : hexVal (hexDigitChar d) = some d := by
  interval_cases d <;> decide

theorem parseStrBody_escape : ∀ cs rest,
    parseStrBody (cs.flatMap escapeChar ++ '"' :: rest) = some (cs, rest) := by
  intro cs
  induction cs with
  | nil => intro rest; unfold parseStrBody; simp
  | cons c cs ih =>
    intro rest
    simp only [List.flatMap_cons, List.append_assoc]
    by_cases h1 : c = '"'
    · subst h1; unfold parseStrBody; simp [escapeChar, escCharInv, ih]
    · by_cases h2 : c = '\\'
      · subst h2
        simp only [escapeChar, if_neg h1, if_pos rfl, List.cons_append, List.nil_append]
        unfold parseStrBody
        simp [escCharInv, ih]
      · by_cases h3 : c = '\x08'
        · subst h3; unfold parseStrBody; simp [escapeChar, escCharInv, ih]
        · by_cases h4 : c = '\t'
          · subst h4; unfold parseStrBody; simp [escapeChar, escCharInv, ih]
          · by_cases h5 : c = '\n'
            · subst h5; unfold parseStrBody; simp [escapeChar, escCharInv, ih]
            · by_cases h6 : c = '\x0c'
              · subst h6; unfold parseStrBody; simp [escapeChar, escCharInv, ih]
              · by_cases h7 : c = '\r'
                · subst h7; unfold parseStrBody; simp [escapeChar, escCharInv, ih]
                · by_cases h8 : c.toNat < 32
                  · simp only [escapeChar, if_neg h1, if_neg h2, if_neg h3, if_neg h4,
                      if_neg h5, if_neg h6, if_neg h7, if_pos h8, List.cons_append,
                      List.nil_append]
                    have hdiv : c.toNat / 16 < 16 := by omega
                    have hmod : c.toNat % 16 < 16 := Nat.mod_lt _ (by norm_num)
                    unfold parseStrBody
                    simp [hex4, hexVal_hexDigitChar hdiv, hexVal_hexDigitChar hmod, ih,
                      show hexVal '0' = some 0 from rfl]
                    rw [show c.toNat / 16 * 16 + c.toNat % 16 = c.toNat by
                      have := Nat.div_add_mod c.toNat 16; omega, Char.ofNat_toNat]
                  · simp only [escapeChar, if_neg h1, if_neg h2, if_neg h3, if_neg h4,
                      if_neg h5, if_neg h6, if_neg h7, if_neg h8, List.cons_append,
                      List.nil_append]
                    unfold parseStrBody
                    simp [if_neg h1, if_neg h2, if_neg h8, ih]

/-! ## Lemmas: serializer heads and parser branch selection -/

theorem stringMk_data (s : String) : String.mk s.data = s := by cases s; rfl

theorem char_ne_of_toNat {c d : Char} (h : c.toNat ≠ d.toNat) : c ≠ d :=
  fun hh => h (by rw [hh])

theorem isDigitChar_bounds {c : Char} (h : isDigitChar c = true) :
    48 ≤ c.toNat ∧ c.toNat ≤ 57 := by
  simpa [isDigitChar, Bool.and_eq_true, decide_eq_true_eq] using h

/-- A decimal digit is not whitespace and not any of the characters the
value parser inspects before the numeral branch. -/
theorem digit_head_facts {c : Char} (h : isDigitChar c = true) :
    isWsChar c = false ∧ c ≠ 'n' ∧ c ≠ 't' ∧ c ≠ 'f' ∧ c ≠ '"' ∧ c ≠ '-' ∧
      c ≠ '[' ∧ c ≠ '{' ∧ c ≠ ']' ∧ c ≠ '}' := by
  obtain ⟨hl, hr⟩ := isDigitChar_bounds h
  refine ⟨?_, ?_, ?_, ?_, ?_, ?_, ?_, ?_, ?_, ?_⟩
  · simp only [isWsChar, Bool.or_eq_false_iff, decide_eq_false_iff_not]
    refine ⟨⟨⟨?_, ?_⟩, ?_⟩, ?_⟩ <;>
      · apply char_ne_of_toNat
        intro hh
        rw [hh] at hl hr
        revert hl hr
        decide
  all_goals
    apply char_ne_of_toNat
    intro hh
    rw [hh] at hl hr
    revert hl hr
    decide

theorem skipWs_not_ws {c : Char} {cs : List Char} (h : isWsChar c = false) :
    skipWs (c :: cs) = c :: cs := by
  simp [skipWs, h]

theorem delimOk_not_digit {rest : List Char} (h : DelimOk rest) :
    rest = [] ∨ ∃ c cs, rest = c :: cs ∧ isDigitChar c = false := by
  rcases h with rfl | ⟨c, cs, rfl, hc⟩
  · exact Or.inl rfl
  · refine Or.inr ⟨c, cs, rfl, ?_⟩
    rcases hc with rfl | rfl | rfl <;> decide

/-- Every serialized value starts with a character that is not whitespace
and not a closing bracket or brace. -/
theorem serializeVal_head (j : Json) : ∃ c cs, serializeVal j = c :: cs ∧
    isWsChar c = false ∧ c ≠ ']' ∧ c ≠ '}' := by
  cases j with
  | num n =>
    by_cases h : n < 0
    · refine ⟨'-', natChars n.natAbs, by simp [serializeVal, intChars, h], ?_, ?_, ?_⟩
      all_goals decide
    · obtain ⟨c, cs, heq, hdig⟩ := natChars_head n.natAbs
      obtain ⟨hws, -, -, -, -, -, -, -, hne1, hne2⟩ := digit_head_facts hdig
      exact ⟨c, cs, by simp [serializeVal, intChars, h, heq], hws, hne1, hne2⟩
  | str s =>
    refine ⟨'"', s.data.flatMap escapeChar ++ ['"'], rfl, ?_, ?_, ?_⟩
    all_goals decide
  | bool b =>
    cases b
    case true => refine ⟨'t', _, rfl, ?_, ?_, ?_⟩ <;> decide
    case false => refine ⟨'f', _, rfl, ?_, ?_, ?_⟩ <;> decide
  | null => refine ⟨'n', _, rfl, ?_, ?_, ?_⟩ <;> decide
  | arr l => refine ⟨'[', _, rfl, ?_, ?_, ?_⟩ <;> decide
  | obj l => refine ⟨'{', _, rfl, ?_, ?_, ?_⟩ <;> decide

/-! ## Lemmas: the parser inverts the serializer -/

theorem delimOk_nil : DelimOk [] := Or.inl rfl

theorem delimOk_comma (t : List Char) : DelimOk (',' :: t) :=
  Or.inr ⟨',', t, rfl, Or.inl rfl⟩

theorem delimOk_rbrace (t : List Char) : DelimOk ('}' :: t) :=
  Or.inr ⟨'}', t, rfl, Or.inr (Or.inl rfl)⟩

theorem delimOk_rbracket (t : List Char) : DelimOk (']' :: t) :=
  Or.inr ⟨']', t, rfl, Or.inr (Or.inr rfl)⟩

mutual

theorem parseVal_ser : ∀ (j : Json) (f : Nat) (rest : List Char),
    fuelFor j ≤ f → DelimOk rest →
    parseVal f (serializeVal j ++ rest) = some (j, rest)
  | .null, f, rest, hf, _ => by
    obtain ⟨f', rfl⟩ : ∃ f', f = f' + 1 :=
      ⟨f - 1, by simp only [fuelFor] at hf; omega⟩
    unfold parseVal
    simp [serializeVal, skipWs, isWsChar, expectLit]
  | .bool true, f, rest, hf, _ => by
    obtain ⟨f', rfl⟩ : ∃ f', f = f' + 1 :=
      ⟨f - 1, by simp only [fuelFor] at hf; omega⟩
    unfold parseVal
    simp [serializeVal, skipWs, isWsChar, expectLit]
  | .bool false, f, rest, hf, _ => by
    obtain ⟨f', rfl⟩ : ∃ f', f = f' + 1 :=
      ⟨f - 1, by simp only [fuelFor] at hf; omega⟩
    unfold parseVal
    simp [serializeVal, skipWs, isWsChar, expectLit]
  | .str s, f, rest, hf, _ => by
    obtain ⟨f', rfl⟩ : ∃ f', f = f' + 1 :=
      ⟨f - 1, by simp only [fuelFor] at hf; omega⟩
    rw [show serializeVal (.str s) ++ rest =
      '"' :: (s.data.flatMap escapeChar ++ '"' :: rest) by simp [serializeVal, strChars]]
    unfold parseVal
    simp [skipWs, isWsChar, parseStrBody_escape, stringMk_data]
  | .num n, f, rest, hf, hrest => by
    obtain ⟨f', rfl⟩ : ∃ f', f = f' + 1 :=
      ⟨f - 1, by simp only [fuelFor] at hf; omega⟩
    by_cases hn : n < 0
    · rw [show serializeVal (.num n) ++ rest = '-' :: (natChars n.natAbs ++ rest) by
        simp [serializeVal, intChars, hn]]
      unfold parseVal
      rw [skipWs_not_ws (by decide)]
      simp only [reduceIte, reduceCtorEq]
      rw [parseNat_natChars _ _ (delimOk_not_digit hrest)]
      have hval : -((n.natAbs : Int)) = n := by omega
      simp only [Option.map_some']
      rw [hval]
      simp
    · obtain ⟨c, cs, heq, hdig⟩ := natChars_head n.natAbs
      obtain ⟨hws, hn1, hn2, hn3, hn4, hn5, hn6, hn7, -, -⟩ := digit_head_facts hdig
      rw [show serializeVal (.num n) ++ rest = c :: (cs ++ rest) by
        simp [serializeVal, intChars, hn, heq]]
      unfold parseVal
      rw [skipWs_not_ws hws]
      simp only [if_neg hn1, if_neg hn2, if_neg hn3, if_neg hn4, if_neg hn5,
        if_neg hn6, if_neg hn7, hdig, if_true]
      rw [show c :: (cs ++ rest) = natChars n.natAbs ++ rest by simp [heq]]
      rw [parseNat_natChars _ _ (delimOk_not_digit hrest)]
      have hval : ((n.natAbs : Int)) = n := by omega
      simp only [Option.map_some']
      rw [hval]
  | .arr l, f, rest, hf, hrest => by
    obtain ⟨f', rfl⟩ : ∃ f', f = f' + 1 :=
      ⟨f - 1, by simp only [fuelFor] at hf; omega⟩
    rw [show serializeVal (.arr l) ++ rest =
      '[' :: (serializeElems l ++ ']' :: rest) by simp [serializeVal]]
    unfold parseVal
    rw [skipWs_not_ws (by decide)]
    simp only [reduceIte, reduceCtorEq]
    cases l with
    | nil =>
      rw [show serializeElems [] ++ ']' :: rest = ']' :: rest from rfl,
        skipWs_not_ws (by decide)]
      simp
    | cons x xs =>
      obtain ⟨c, cs, hser, hws, hne1, hne2⟩ := serializeVal_head x
      obtain ⟨t, ht⟩ : ∃ t, serializeElems (x :: xs) = serializeVal x ++ t := by
        cases xs with
        | nil => exact ⟨[], by simp [serializeElems]⟩
        | cons y ys => exact ⟨',' :: serializeElems (y :: ys), by simp [serializeElems]⟩
      have hshape : serializeElems (x :: xs) ++ ']' :: rest =
          c :: (cs ++ t ++ ']' :: rest) := by
        rw [ht, hser]; simp
      rw [hshape, skipWs_not_ws hws]
      simp only [if_neg hne1]
      rw [show c :: (cs ++ t ++ ']' :: rest) = serializeElems (x :: xs) ++ ']' :: rest by
        rw [hshape]]
      rw [parseElems_ser (x :: xs) (by simp) f' rest
        (by simp only [fuelFor] at hf; omega)]
      simp
  | .obj l, f, rest, hf, hrest => by
    obtain ⟨f', rfl⟩ : ∃ f', f = f' + 1 :=
      ⟨f - 1, by simp only [fuelFor] at hf; omega⟩
    rw [show serializeVal (.obj l) ++ rest =
      '{' :: (serializeFields l ++ '}' :: rest) by simp [serializeVal]]
    unfold parseVal
    rw [skipWs_not_ws (by decide)]
    simp only [reduceIte, reduceCtorEq]
    cases l with
    | nil =>
      rw [show serializeFields [] ++ '}' :: rest = '}' :: rest from rfl,
        skipWs_not_ws (by decide)]
      simp
    | cons p ps =>
      obtain ⟨k, v⟩ := p
      obtain ⟨t2, ht2⟩ : ∃ t2, serializeFields ((k, v) :: ps) = '"' :: t2 := by
        cases ps with
        | nil =>
          exact ⟨k.data.flatMap escapeChar ++ '"' :: ':' :: serializeVal v,
            by simp [serializeFields, strChars]⟩
        | cons q qs =>
          exact ⟨k.data.flatMap escapeChar ++ '"' :: ':' ::
            (serializeVal v ++ ',' :: serializeFields (q :: qs)),
            by simp [serializeFields, strChars]⟩
      rw [show serializeFields ((k, v) :: ps) ++ '}' :: rest =
        '"' :: (t2 ++ '}' :: rest) by rw [ht2]; simp]
      rw [skipWs_not_ws (by decide)]
      simp only [reduceIte, reduceCtorEq]
      rw [show ('"' :: (t2 ++ '}' :: rest) : List Char) =
        serializeFields ((k, v) :: ps) ++ '}' :: rest by rw [ht2]; simp]
      rw [parseFields_ser ((k, v) :: ps) (by simp) f' rest
        (by simp only [fuelFor] at hf; omega)]
      simp

theorem parseElems_ser : ∀ (l : List Json), l ≠ [] → ∀ (f : Nat) (rest : List Char),
    fuelForElems l ≤ f → parseElems f (serializeElems l ++ ']' :: rest) = some (l, rest)
  | [], h, _, _, _ => absurd rfl h
  | [x], _, f, rest, hf => by
    obtain ⟨f', rfl⟩ : ∃ f', f = f' + 1 :=
      ⟨f - 1, by simp only [fuelForElems] at hf; omega⟩
    unfold parseElems
    rw [show serializeElems [x] ++ ']' :: rest = serializeVal x ++ ']' :: rest by
      simp [serializeElems]]
    rw [parseVal_ser x f' (']' :: rest)
      (by simp only [fuelForElems] at hf; omega) (delimOk_rbracket rest)]
    simp [skipWs, isWsChar]
  | x :: y :: ys, _, f, rest, hf => by
    obtain ⟨f', rfl⟩ : ∃ f', f = f' + 1 :=
      ⟨f - 1, by simp only [fuelForElems] at hf; omega⟩
    unfold parseElems
    rw [show serializeElems (x :: y :: ys) ++ ']' :: rest =
      serializeVal x ++ (',' :: (serializeElems (y :: ys) ++ ']' :: rest)) by
      simp [serializeElems]]
    rw [parseVal_ser x f' _
      (by simp only [fuelForElems] at hf; omega) (delimOk_comma _)]
    have hrec := parseElems_ser (y :: ys) (by simp) f' rest
      (by simp only [fuelForElems] at hf ⊢; omega)
    simp [skipWs, isWsChar, hrec]

theorem parseFields_ser : ∀ (l : List (String × Json)), l ≠ [] →
    ∀ (f : Nat) (rest : List Char), fuelForFields l ≤ f →
    parseFields f (serializeFields l ++ '}' :: rest) = some (l, rest)
  | [], h, _, _, _ => absurd rfl h
  | [(k, v)], _, f, rest, hf => by
    obtain ⟨f', rfl⟩ : ∃ f', f = f' + 1 :=
      ⟨f - 1, by simp only [fuelForFields] at hf; omega⟩
    unfold parseFields
    rw [show serializeFields [(k, v)] ++ '}' :: rest =
      '"' :: (k.data.flatMap escapeChar ++ '"' :: (':' :: (serializeVal v ++ '}' :: rest)))
      by simp [serializeFields, strChars]]
    rw [skipWs_not_ws (by decide)]
    simp only [reduceIte, reduceCtorEq]
    rw [parseStrBody_escape]
    have hv := parseVal_ser v f' ('}' :: rest)
      (by simp only [fuelForFields] at hf; omega) (delimOk_rbrace rest)
    simp [skipWs, isWsChar, hv, stringMk_data]
  | (k, v) :: q :: qs, _, f, rest, hf => by
    obtain ⟨f', rfl⟩ : ∃ f', f = f' + 1 :=
      ⟨f - 1, by simp only [fuelForFields] at hf; omega⟩
    unfold parseFields
    rw [show serializeFields ((k, v) :: q :: qs) ++ '}' :: rest =
      '"' :: (k.data.flatMap escapeChar ++ '"' :: (':' :: (serializeVal v ++
        ',' :: (serializeFields (q :: qs) ++ '}' :: rest)))) by
      simp [serializeFields, strChars]]
    rw [skipWs_not_ws (by decide)]
    simp only [reduceIte, reduceCtorEq]
    rw [parseStrBody_escape]
    have hv := parseVal_ser v f' (',' :: (serializeFields (q :: qs) ++ '}' :: rest))
      (by simp only [fuelForFields] at hf; omega) (delimOk_comma _)
    have hrec := parseFields_ser (q :: qs) (by simp) f' rest
      (by simp only [fuelForFields] at hf ⊢; omega)
    simp [skipWs, isWsChar, hv, hrec, stringMk_data]

end

/-! ## Lemmas: fuel bounds and the top-level round trip -/

mutual

theorem fuelFor_le : ∀ j : Json, fuelFor j ≤ (serializeVal j).length
  | .null => by simp [fuelFor, serializeVal]
  | .bool b => by cases b <;> simp [fuelFor, serializeVal]
  | .num n => by
    obtain ⟨c, cs, heq, -⟩ := natChars_head n.natAbs
    by_cases hn : n < 0 <;>
      simp [fuelFor, serializeVal, intChars, hn, heq]
  | .str s => by simp [fuelFor, serializeVal, strChars]
  | .arr l => by
    have h := fuelForElems_le l
    simp only [fuelFor, serializeVal, List.length_cons, List.length_append]
    omega
  | .obj l => by
    have h := fuelForFields_le l
    simp only [fuelFor, serializeVal, List.length_cons, List.length_append]
    omega
termination_by structural j => j

theorem fuelForElems_le : ∀ l : List Json, fuelForElems l ≤ (serializeElems l).length + 1
  | [] => by simp [fuelForElems, serializeElems]
  | [x] => by
    have h := fuelFor_le x
    simp only [fuelForElems, serializeElems]
    omega
  | x :: y :: ys => by
    have h1 := fuelFor_le x
    have h2 := fuelForElems_le (y :: ys)
    simp only [fuelForElems] at h2
    simp only [fuelForElems, serializeElems, List.length_append, List.length_cons]
    omega
termination_by structural l => l

theorem fuelForFields_le : ∀ l : List (String × Json),
    fuelForFields l ≤ (serializeFields l).length + 1
  | [] => by simp [fuelForFields, serializeFields]
  | [(k, v)] => by
    have h := fuelFor_le v
    simp only [fuelForFields, serializeFields, List.length_append, List.length_cons]
    omega
  | (k, v) :: q :: qs => by
    have h1 := fuelFor_le v
    have h2 := fuelForFields_le (q :: qs)
    simp only [fuelForFields] at h2
    simp only [fuelForFields, serializeFields, List.length_append, List.length_cons]
    omega
termination_by structural l => l

end

/-- The parser inverts the serializer: `JSON.parse` recovers exactly the
value that `JSON.stringify` printed. -/
theorem parseJson_serializeJson (j : Json) : parseJson (serializeJson j) = some j := by
  unfold parseJson serializeJson
  have hv := parseVal_ser j ((serializeVal j).length + 1) []
    (le_trans (fuelFor_le j) (by omega)) delimOk_nil
  rw [List.append_nil] at hv
  rw [show (String.mk (serializeVal j)).length = (serializeVal j).length from rfl,
    show (String.mk (serializeVal j)).data = serializeVal j from rfl, hv]
  simp [skipWs]

/-- Decoding a canonically encoded record yields its key-sorted form. -/
theorem parseJson_encode (r : Json) :
    parseJson (encode r) = some (sortKeysRecursive r) := by
  rw [encode_eq_serialize_sortRec, parseJson_serializeJson]

/-! ## Lemmas: deep key-sortedness of the canonical form -/

theorem fieldsSortedDeep_iff_mem {l : List (String × Json)} :
    fieldsSortedDeep l = true ↔ ∀ p ∈ l, keysSortedDeep p.2 = true := by
  induction l with
  | nil => simp [fieldsSortedDeep]
  | cons p rest ih =>
    obtain ⟨k, v⟩ := p
    simp only [fieldsSortedDeep, Bool.and_eq_true, ih, List.mem_cons]
    constructor
    · rintro ⟨h1, h2⟩ q (hq | hq)
      · rw [hq]; exact h1
      · exact h2 q hq
    · intro h
      exact ⟨h (k, v) (Or.inl rfl), fun q hq => h q (Or.inr hq)⟩

theorem keysSortedB_of_pairwise : ∀ l : List (String × Json),
    List.Pairwise keyLe l → keysSortedB l = true
  | [], _ => rfl
  | [_], _ => rfl
  | p :: q :: r, h => by
    rw [List.pairwise_cons] at h
    simp only [keysSortedB, Bool.and_eq_true]
    exact ⟨h.1 q (List.mem_cons_self _ _), keysSortedB_of_pairwise (q :: r) h.2⟩

mutual

theorem keysSortedDeep_sortRec : ∀ j : Json,
    keysSortedDeep (sortKeysRecursive j) = true
  | .null => rfl
  | .bool _ => rfl
  | .num _ => rfl
  | .str _ => rfl
  | .arr l => by
    simp only [sortKeysRecursive, keysSortedDeep]
    exact elemsSortedDeep_sortRec l
  | .obj l => by
    simp only [sortKeysRecursive, keysSortedDeep, Bool.and_eq_true]
    refine ⟨keysSortedB_of_pairwise _ (List.sorted_insertionSort keyLe _), ?_⟩
    rw [fieldsSortedDeep_iff_mem]
    intro p hp
    exact sortFieldsRec_val_sorted l p ((List.perm_insertionSort keyLe _).mem_iff.mp hp)
termination_by structural j => j

theorem elemsSortedDeep_sortRec : ∀ l : List Json,
    elemsSortedDeep (sortElemsRec l) = true
  | [] => rfl
  | x :: xs => by
    simp only [sortElemsRec, elemsSortedDeep, Bool.and_eq_true]
    exact ⟨keysSortedDeep_sortRec x, elemsSortedDeep_sortRec xs⟩
termination_by structural l => l

theorem sortFieldsRec_val_sorted : ∀ (l : List (String × Json)) (p : String × Json),
    p ∈ sortFieldsRec l → keysSortedDeep p.2 = true
  | [], p => by simp [sortFieldsRec]
  | (k, v) :: rest, p => by
    simp only [sortFieldsRec, List.mem_cons]
    rintro (h | h)
    · rw [h]; exact keysSortedDeep_sortRec v
    · exact sortFieldsRec_val_sorted rest p h
termination_by structural l => l

end

/-! ## Lemmas: property assignment -/

theorem setPair_mem {l : List (String × Json)} {k : String} {v : Json}
    {q : String × Json} (h : q ∈ Json.setPair l k v) : q = (k, v) ∨ q ∈ l := by
  induction l with
  | nil => simp [Json.setPair] at h; simp [h]
  | cons p rest ih =>
    obtain ⟨k', v'⟩ := p
    simp only [Json.setPair] at h
    split_ifs at h with h1
    · rcases List.mem_cons.mp h with h | h
      · exact Or.inl h
      · exact Or.inr (List.mem_cons_of_mem _ h)
    · rcases List.mem_cons.mp h with h | h
      · exact Or.inr (by simp [h])
      · rcases ih h with h | h
        · exact Or.inl h
        · exact Or.inr (List.mem_cons_of_mem _ h)

theorem lookup_setPair_self (l : List (String × Json)) (k : String) (v : Json) :
    Json.lookupField (Json.setPair l k v) k = some v := by
  induction l with
  | nil => simp [Json.setPair, Json.lookupField]
  | cons p rest ih =>
    obtain ⟨k', v'⟩ := p
    simp only [Json.setPair]
    by_cases h : k' = k
    · simp [h, Json.lookupField]
    · simp only [if_neg h, Json.lookupField, if_neg h]
      exact ih

theorem lookup_setPair_ne (l : List (String × Json)) (k k'' : String) (v : Json)
    (h : k'' ≠ k) : Json.lookupField (Json.setPair l k v) k'' = Json.lookupField l k'' := by
  induction l with
  | nil =>
    simp only [Json.setPair, Json.lookupField]
    rw [if_neg (Ne.symm h)]
  | cons p rest ih =>
    obtain ⟨k', v'⟩ := p
    simp only [Json.setPair]
    by_cases h1 : k' = k
    · simp only [if_pos h1, Json.lookupField]
      have hne : ¬ k = k'' := Ne.symm h
      have hne' : ¬ k' = k'' := fun hh => hne (h1.symm.trans hh)
      rw [if_neg hne, if_neg hne']
    · simp only [if_neg h1, Json.lookupField]
      by_cases h2 : k' = k''
      · simp [h2]
      · simp only [if_neg h2]
        exact ih

theorem nodupKeys_setPair (l : List (String × Json)) (k : String) (v : Json)
    (h : Json.nodupKeys l = true) : Json.nodupKeys (Json.setPair l k v) = true := by
  induction l with
  | nil => simp [Json.setPair, Json.nodupKeys]
  | cons p rest ih =>
    obtain ⟨k', v'⟩ := p
    rw [nodupKeys_iff_pairwise, List.pairwise_cons] at h
    simp only [Json.setPair]
    by_cases h1 : k' = k
    · simp only [if_pos h1]
      rw [nodupKeys_iff_pairwise, List.pairwise_cons]
      exact ⟨fun q hq hc => h.1 q hq (h1.trans hc), h.2⟩
    · simp only [if_neg h1]
      rw [nodupKeys_iff_pairwise, List.pairwise_cons]
      constructor
      · intro q hq
        rcases setPair_mem hq with hq' | hq'
        · rw [hq']
          exact fun hc => h1 hc
        · exact h.1 q hq'
      · rw [← nodupKeys_iff_pairwise]
        exact ih (nodupKeys_iff_pairwise.mpr h.2)

/-! ## Lemmas: strings and existence -/

theorem string_length_pos_iff {v : String} : 0 < v.length ↔ v ≠ "" := by
  cases v with
  | mk l =>
    cases l with
    | nil => simp
    | cons c cs =>
      simp only [String.length, List.length_cons]
      constructor
      · intro _ hc
        exact List.cons_ne_nil c cs (congrArg String.data hc)
      · intro _
        omega

theorem encode_ne_empty (j : Json) : encode j ≠ "" := by
  obtain ⟨c, cs, heq, -, -, -⟩ := serializeVal_head (sortKeysRecursive j)
  rw [encode_eq_serialize_sortRec, serializeJson, heq]
  intro hc
  exact List.cons_ne_nil c cs (congrArg String.data hc)

theorem assetExists_iff_present (s : Store) (id : String) :
    assetExists s id = true ↔ present s id := by
  unfold assetExists present
  cases h : getState s id with
  | none => simp
  | some v =>
    simp only [decide_eq_true_eq, Option.some.injEq]
    rw [string_length_pos_iff]
    constructor
    · intro hv
      exact ⟨v, rfl, hv⟩
    · rintro ⟨w, rfl, hw⟩
      exact hw

theorem assetExists_false_iff (s : Store) (id : String) :
    assetExists s id = false ↔ ¬ present s id := by
  rw [← assetExists_iff_present]
  cases assetExists s id <;> simp

/-! ## Lemmas: handler characterizations -/

theorem string_length_eq_zero_iff {v : String} : v.length = 0 ↔ v = "" := by
  constructor
  · intro h
    by_contra hne
    have := string_length_pos_iff.mpr hne
    omega
  · rintro rfl
    rfl

theorem readAsset_eq_none {s : Store} {id : String} (h : getState s id = none) :
    readAsset s id = .error (.notFound id) := by
  unfold readAsset
  rw [h]

theorem readAsset_eq_some {s : Store} {id w : String} (h : getState s id = some w) :
    readAsset s id = if w.length = 0 then .error (.notFound id) else .ok w := by
  unfold readAsset
  rw [h]

theorem readAsset_ok_iff {s : Store} {id v : String} :
    readAsset s id = .ok v ↔ getState s id = some v ∧ v ≠ "" := by
  cases h : getState s id with
  | none => simp [readAsset_eq_none h]
  | some w =>
    rw [readAsset_eq_some h]
    split_ifs with hw
    · rw [string_length_eq_zero_iff] at hw
      subst hw
      simp +contextual [eq_comm]
    · rw [string_length_eq_zero_iff] at hw
      constructor
      · rintro ⟨rfl⟩
        exact ⟨rfl, hw⟩
      · rintro ⟨hww, -⟩
        rw [Option.some.injEq] at hww
        rw [hww]

theorem readAsset_notFound_iff {s : Store} {id : String} :
    readAsset s id = .error (.notFound id) ↔ ¬ present s id := by
  unfold present
  cases h : getState s id with
  | none =>
    simp only [readAsset_eq_none h, h, true_iff]
    rintro ⟨v, hv, -⟩
    cases hv
  | some w =>
    rw [readAsset_eq_some h]
    split_ifs with hw
    · rw [string_length_eq_zero_iff] at hw
      subst hw
      simp only [true_iff]
      rintro ⟨v, hv, hvne⟩
      rw [Option.some.injEq] at hv
      exact hvne hv.symm
    · rw [string_length_eq_zero_iff] at hw
      simp only [reduceCtorEq, false_iff, not_not]
      exact ⟨w, rfl, hw⟩

theorem transferAsset_ok_cases {s : Store} {id nw : String} {r : String} {s' : Store}
    (h : transferAsset s id nw = .ok (r, s')) :
    ∃ v a, getState s id = some v ∧ v ≠ "" ∧ parseJson v = some a ∧
      s' = putState s id (encode (Json.setField a "owner_name" (.str nw))) ∧
      r = transferRet (a.getField "owner_name") := by
  unfold transferAsset at h
  cases hr : readAsset s id with
  | error e => rw [hr] at h; exact absurd h (by simp)
  | ok v =>
    rw [hr] at h
    obtain ⟨hv, hne⟩ := readAsset_ok_iff.mp hr
    have h2 : (match parseJson v with
      | none => (.error .syntaxError : Except CCError (String × Store))
      | some (.obj fields) =>
        .ok (transferRet (Json.lookupField fields "owner_name"),
          putState s id (encode (.obj (Json.setPair fields "owner_name" (.str nw)))))
      | some (.arr xs) => .ok (transferRet none, putState s id (encode (.arr xs)))
      | some _ => .error .typeError) = .ok (r, s') := h
    cases hp : parseJson v with
    | none => rw [hp] at h2; exact absurd h2 (by simp)
    | some a =>
      rw [hp] at h2
      cases a with
      | obj fields =>
        simp only [Except.ok.injEq, Prod.mk.injEq] at h2
        exact ⟨v, .obj fields, hv, hne, hp, h2.2.symm, h2.1.symm⟩
      | arr xs =>
        simp only [Except.ok.injEq, Prod.mk.injEq] at h2
        exact ⟨v, .arr xs, hv, hne, hp, h2.2.symm, h2.1.symm⟩
      | null => exact absurd h2 (by simp)
      | bool b => exact absurd h2 (by simp)
      | num n => exact absurd h2 (by simp)
      | str w => exact absurd h2 (by simp)

theorem lookupField_sortFieldsRec (l : List (String × Json)) (k : String) :
    Json.lookupField (sortFieldsRec l) k = (Json.lookupField l k).map sortKeysRecursive := by
  induction l with
  | nil => rfl
  | cons p rest ih =>
    obtain ⟨k', v⟩ := p
    simp only [sortFieldsRec, Json.lookupField]
    by_cases h : k' = k
    · simp [h]
    · simp only [if_neg h]
      exact ih

/-- Reading a field of the decoded canonical encoding of a mapping gives the
(canonicalised) value the mapping holds for that field. -/
theorem getField_parse_encode {l : List (String × Json)}
    (hnd : Json.nodupKeys l = true) (k : String) :
    (parseJson (encode (.obj l))).bind (fun j => j.getField k) =
      (Json.lookupField l k).map sortKeysRecursive := by
  rw [parseJson_encode]
  simp only [sortKeysRecursive, Option.some_bind, Json.getField]
  rw [lookupField_perm ((nodupKeys_sortFieldsRec l).symm ▸ hnd)
    (List.perm_insertionSort keyLe (sortFieldsRec l)).symm]
  exact lookupField_sortFieldsRec l k

theorem initLedger_run (s : Store) : ∀ a ∈ preparedAssets,
    getState (initLedger s) a.idString = some (encode a) := by
  intro a ha
  have hlist : preparedAssets =
      [ (mkAsset "asset1" "game1" "Tomoko" "player" (.num 300)).setField "docType" (.str "asset"),
        (mkAsset "asset2" "game2" "Brad" "player" (.num 400)).setField "docType" (.str "asset"),
        (mkAsset "asset3" "game3" "Jin Soo" "player" (.num 500)).setField "docType" (.str "asset"),
        (mkAsset "asset4" "game4" "Max" "player" (.num 600)).setField "docType" (.str "asset"),
        (mkAsset "asset5" "game5" "Adriana" "player" (.num 700)).setField "docType" (.str "asset"),
        (mkAsset "asset6" "game6" "Michel" "player" (.num 800)).setField "docType" (.str "asset") ] := rfl
  have hfold : initLedger s =
      putState (putState (putState (putState (putState (putState s
        "asset1" (encode (preparedAssets.get ⟨0, by decide⟩)))
        "asset2" (encode (preparedAssets.get ⟨1, by decide⟩)))
        "asset3" (encode (preparedAssets.get ⟨2, by decide⟩)))
        "asset4" (encode (preparedAssets.get ⟨3, by decide⟩)))
        "asset5" (encode (preparedAssets.get ⟨4, by decide⟩)))
        "asset6" (encode (preparedAssets.get ⟨5, by decide⟩)) := rfl
  rw [hlist] at ha
  simp only [List.mem_cons, List.not_mem_nil, or_false] at ha
  rcases ha with rfl | rfl | rfl | rfl | rfl | rfl
  · rw [hfold]
    rw [getState_putState_ne _ _ _ _ (by decide), getState_putState_ne _ _ _ _ (by decide),
      getState_putState_ne _ _ _ _ (by decide), getState_putState_ne _ _ _ _ (by decide),
      getState_putState_ne _ _ _ _ (by decide)]
    exact getState_putState_self _ _ _
  · rw [hfold]
    rw [getState_putState_ne _ _ _ _ (by decide), getState_putState_ne _ _ _ _ (by decide),
      getState_putState_ne _ _ _ _ (by decide), getState_putState_ne _ _ _ _ (by decide)]
    exact getState_putState_self _ _ _
  · rw [hfold]
    rw [getState_putState_ne _ _ _ _ (by decide), getState_putState_ne _ _ _ _ (by decide),
      getState_putState_ne _ _ _ _ (by decide)]
    exact getState_putState_self _ _ _
  · rw [hfold]
    rw [getState_putState_ne _ _ _ _ (by decide), getState_putState_ne _ _ _ _ (by decide)]
    exact getState_putState_self _ _ _
  · rw [hfold]
    rw [getState_putState_ne _ _ _ _ (by decide)]
    exact getState_putState_self _ _ _
  · rw [hfold]
    exact getState_putState_self _ _ _

theorem createAsset_cases {s : Store} {id gn onm otp : String} {gv : Json}
    {out : String} {s' : Store} (h : createAsset s id gn onm otp gv = .ok (out, s')) :
    assetExists s id = false ∧ out = serializeJson (mkAsset id gn onm otp gv) ∧
      s' = putState s id (encode (mkAsset id gn onm otp gv)) := by
  unfold createAsset at h
  split_ifs at h with hex
  simp only [Except.ok.injEq, Prod.mk.injEq] at h
  exact ⟨Bool.not_eq_true _ ▸ hex, h.1.symm, h.2.symm⟩

theorem updateAsset_cases {s : Store} {id gn onm otp : String} {gv : Json}
    {s' : Store} (h : updateAsset s id gn onm otp gv = .ok s') :
    assetExists s id = true ∧ s' = putState s id (encode (mkAsset id gn onm otp gv)) := by
  unfold updateAsset at h
  split_ifs at h with hex
  simp only [Except.ok.injEq] at h
  exact ⟨hex, h.symm⟩

theorem deleteAsset_cases {s : Store} {id : String} {s' : Store}
    (h : deleteAsset s id = .ok s') :
    assetExists s id = true ∧ s' = deleteState s id := by
  unfold deleteAsset at h
  split_ifs at h with hex
  simp only [Except.ok.injEq] at h
  exact ⟨hex, h.symm⟩

theorem mem_deleteState {s : Store} {k : String} {kv : String × String}
    (h : kv ∈ deleteState s k) : kv ∈ s :=
  (List.mem_filter.mp h).1

theorem mem_foldl_put : ∀ (l : List Json) (s : Store) (kv : String × String),
    kv ∈ l.foldl (fun st a => putState st a.idString (encode a)) s →
    kv ∈ s ∨ ∃ a ∈ l, kv = (a.idString, encode a) := by
  intro l
  induction l with
  | nil => intro s kv h; exact Or.inl h
  | cons a t ih =>
    intro s kv h
    simp only [List.foldl_cons] at h
    rcases ih _ kv h with h1 | ⟨b, hb, rfl⟩
    · rcases mem_putState h1 with h2 | h2
      · exact Or.inr ⟨a, List.mem_cons_self _ _, h2⟩
      · exact Or.inl h2
    · exact Or.inr ⟨b, List.mem_cons_of_mem _ hb, rfl⟩

theorem preparedAssets_canonical : ∀ a ∈ preparedAssets,
    storedCanonical (a.idString, encode a) := by
  intro a ha
  simp only [show preparedAssets =
    [ (mkAsset "asset1" "game1" "Tomoko" "player" (.num 300)).setField "docType" (.str "asset"),
      (mkAsset "asset2" "game2" "Brad" "player" (.num 400)).setField "docType" (.str "asset"),
      (mkAsset "asset3" "game3" "Jin Soo" "player" (.num 500)).setField "docType" (.str "asset"),
      (mkAsset "asset4" "game4" "Max" "player" (.num 600)).setField "docType" (.str "asset"),
      (mkAsset "asset5" "game5" "Adriana" "player" (.num 700)).setField "docType" (.str "asset"),
      (mkAsset "asset6" "game6" "Michel" "player" (.num 800)).setField "docType" (.str "asset") ]
    from rfl, List.mem_cons, List.not_mem_nil, or_false] at ha
  rcases ha with rfl | rfl | rfl | rfl | rfl | rfl <;>
    exact ⟨_, rfl, by decide, by decide⟩

theorem decodedField_eq_bind (s : Store) (id k : String) :
    decodedField s id k = ((getState s id).bind parseJson).bind (fun j => j.getField k) := by
  unfold decodedField
  cases getState s id with
  | none => rfl
  | some w =>
    show (match parseJson w with
      | some j => j.getField k
      | none => none) = (parseJson w).bind (fun j => j.getField k)
    cases parseJson w with
    | none => rfl
    | some j => rfl

theorem decodedField_put_encode {s : Store} {id : String} {l : List (String × Json)}
    (hnd : Json.nodupKeys l = true) (k : String) :
    decodedField (putState s id (encode (.obj l))) id k =
      (Json.lookupField l k).map sortKeysRecursive := by
  rw [decodedField_eq_bind, getState_putState_self]
  exact getField_parse_encode hnd k

theorem storedCanonical_lookup_id {kv : String × String} (h : storedCanonical kv) :
    storedRecordOK kv := by
  obtain ⟨fields, henc, hnd, hid⟩ := h
  refine ⟨List.insertionSort keyLe (sortFieldsRec fields), ?_, ?_⟩
  · rw [henc, parseJson_encode]
    rfl
  · rw [lookupField_perm ((nodupKeys_sortFieldsRec fields).symm ▸ hnd)
      (List.perm_insertionSort keyLe (sortFieldsRec fields)).symm,
      lookupField_sortFieldsRec, hid]
    rfl

theorem transferAsset_notFound_iff {s : Store} {id nw : String} :
    transferAsset s id nw = .error (.notFound id) ↔ ¬ present s id := by
  constructor
  · intro h
    unfold transferAsset at h
    cases hr : readAsset s id with
    | error e =>
      rw [hr] at h
      have he : e = .notFound id := by
        injection h
      rw [he] at hr
      exact readAsset_notFound_iff.mp hr
    | ok v =>
      rw [hr] at h
      have h2 : (match parseJson v with
        | none => (.error .syntaxError : Except CCError (String × Store))
        | some (.obj fields) =>
          .ok (transferRet (Json.lookupField fields "owner_name"),
            putState s id (encode (.obj (Json.setPair fields "owner_name" (.str nw)))))
        | some (.arr xs) => .ok (transferRet none, putState s id (encode (.arr xs)))
        | some _ => .error .typeError) = .error (.notFound id) := h
      cases hp : parseJson v with
      | none => rw [hp] at h2; exact absurd h2 (by simp)
      | some a =>
        rw [hp] at h2
        cases a <;> exact absurd h2 (by simp)
  · intro h
    rw [← readAsset_notFound_iff] at h
    unfold transferAsset
    rw [h]

/-! ## The claims -/

/-- Claim C4: ReadAsset, UpdateAsset, DeleteAsset and TransferAsset fail
with NotFound exactly when no non-empty value is stored under the id, and
each succeeds only when a non-empty value is stored (raises-iff-absent). -/
theorem claim4_raises_iff_absent (s : Store) (id gn onm otp : String)
    (gv : Json) (nw : String) :
    (readAsset s id = .error (.notFound id) ↔ ¬ present s id) ∧
    (updateAsset s id gn onm otp gv = .error (.notFound id) ↔ ¬ present s id) ∧
    (deleteAsset s id = .error (.notFound id) ↔ ¬ present s id) ∧
    (transferAsset s id nw = .error (.notFound id) ↔ ¬ present s id) ∧
    ((∃ v, readAsset s id = .ok v) → present s id) ∧
    ((∃ s', updateAsset s id gn onm otp gv = .ok s') → present s id) ∧
    ((∃ s', deleteAsset s id = .ok s') → present s id) ∧
    ((∃ r, transferAsset s id nw = .ok r) → present s id) := by
  refine ⟨readAsset_notFound_iff, ?_, ?_, transferAsset_notFound_iff, ?_, ?_, ?_, ?_⟩
  · unfold updateAsset
    split_ifs with hex
    · have := (assetExists_iff_present s id).mp hex
      simp [this]
    · have := (assetExists_false_iff s id).mp (Bool.not_eq_true _ ▸ hex)
      simp [this]
  · unfold deleteAsset
    split_ifs with hex
    · have := (assetExists_iff_present s id).mp hex
      simp [this]
    · have := (assetExists_false_iff s id).mp (Bool.not_eq_true _ ▸ hex)
      simp [this]
  · rintro ⟨v, hv⟩
    obtain ⟨h1, h2⟩ := readAsset_ok_iff.mp hv
    exact ⟨v, h1, h2⟩
  · rintro ⟨s', hs⟩
    exact (assetExists_iff_present s id).mp (updateAsset_cases hs).1
  · rintro ⟨s', hs⟩
    exact (assetExists_iff_present s id).mp (deleteAsset_cases hs).1
  · rintro ⟨⟨r, s'⟩, ht⟩
    obtain ⟨v, a, hv, hne, -, -, -⟩ := transferAsset_ok_cases ht
    exact ⟨v, hv, hne⟩

/-- Witness for C4 at concrete inputs: a never-created id makes all four
operations fail with NotFound, and a successful transfer implies presence. -/
theorem claim4_witness :
    (readAsset [] "asset1" = .error (.notFound "asset1")) ∧
    (updateAsset [] "asset1" "Chess" "Me" "player" (.num 500) =
      .error (.notFound "asset1")) ∧
    (deleteAsset [] "asset1" = .error (.notFound "asset1")) ∧
    (transferAsset [] "asset1" "Me" = .error (.notFound "asset1")) ∧
    present (putState [] "asset1"
      (encode (mkAsset "asset1" "Chess" "Robert" "player" (.num 100)))) "asset1" := by
  have h := claim4_raises_iff_absent [] "asset1" "Chess" "Me" "player" (.num 500) "Me"
  have habs : ¬ present ([] : Store) "asset1" := by
    rintro ⟨v, hv, -⟩
    cases hv
  have h2 := claim4_raises_iff_absent
    (putState [] "asset1" (encode (mkAsset "asset1" "Chess" "Robert" "player" (.num 100))))
    "asset1" "Chess" "Me" "player" (.num 500) "Paul"
  refine ⟨h.1.mpr habs, h.2.1.mpr habs, h.2.2.1.mpr habs, h.2.2.2.1.mpr habs,
    h2.2.2.2.2.2.2.2 ⟨(transferAsset
      (putState [] "asset1" (encode (mkAsset "asset1" "Chess" "Robert" "player" (.num 100))))
      "asset1" "Paul").toOption.getD ("", []), ?_⟩⟩
  decide

/-- Claim C7: AssetExists is a boolean that is true exactly when a
non-empty value is stored under the id; it is true right after CreateAsset
and false right after DeleteAsset. -/
theorem claim7_asset_exists (s : Store) (id gn onm otp : String) (gv : Json) :
    (assetExists s id = true ↔ present s id) ∧
    (∀ out s', createAsset s id gn onm otp gv = .ok (out, s') →
      assetExists s' id = true) ∧
    (∀ s', deleteAsset s id = .ok s' → assetExists s' id = false) := by
  refine ⟨assetExists_iff_present s id, ?_, ?_⟩
  · intro out s' h
    obtain ⟨-, -, rfl⟩ := createAsset_cases h
    rw [assetExists_iff_present]
    exact ⟨encode (mkAsset id gn onm otp gv), getState_putState_self s id _,
      encode_ne_empty _⟩
  · intro s' h
    obtain ⟨-, rfl⟩ := deleteAsset_cases h
    rw [assetExists_false_iff]
    rintro ⟨v, hv, -⟩
    rw [getState_deleteState_self] at hv
    cases hv

/-- Witness for C7 at concrete inputs: the existence check is true after a
create and false after the delete. -/
theorem claim7_witness :
    assetExists ((createAsset [] "asset1" "Chess" "Robert" "player"
      (.num 100)).toOption.map Prod.snd |>.getD []) "asset1" = true ∧
    assetExists ((deleteAsset ((createAsset [] "asset1" "Chess" "Robert" "player"
      (.num 100)).toOption.map Prod.snd |>.getD []) "asset1").toOption.getD [])
      "asset1" = false := by
  constructor
  · exact (claim7_asset_exists [] "asset1" "Chess" "Robert" "player" (.num 100)).2.1
      _ _ rfl
  · exact (claim7_asset_exists ((createAsset [] "asset1" "Chess" "Robert" "player"
      (.num 100)).toOption.map Prod.snd |>.getD []) "asset1" "Chess" "Robert" "player"
      (.num 100)).2.2 _ rfl

/-- Counterexample for C2 as stated: the value returned by a successful
CreateAsset is `JSON.stringify(asset)` in field-insertion order, which is
not the canonical (key-sorted) encoding of the created record. -/
theorem claim2_counterexample :
    (createAsset [] "asset1" "Chess" "Robert" "player" (.num 100)).toOption.map Prod.fst ≠
      some (encode (mkAsset "asset1" "Chess" "Robert" "player" (.num 100))) := by
  decide

/-- Claim C2 as amended: CreateAsset fails with AlreadyExists exactly on a
present id; otherwise it builds a record with exactly the five fields (no
docType), writes its canonical encoding under the id, and returns the
record serialized with `JSON.stringify` in insertion order (not the
canonical encoding). -/
theorem claim2_create_asset (s : Store) (id gn onm otp : String) (gv : Json) :
    (present s id → createAsset s id gn onm otp gv = .error (.alreadyExists id)) ∧
    (¬ present s id →
      createAsset s id gn onm otp gv =
        .ok (serializeJson (mkAsset id gn onm otp gv),
          putState s id (encode (mkAsset id gn onm otp gv))) ∧
      (∃ fields, mkAsset id gn onm otp gv = .obj fields ∧
        Json.keysOf fields = ["id", "game_name", "owner_name", "owner_type", "game_value"] ∧
        Json.lookupField fields "docType" = none) ∧
      decodedField (putState s id (encode (mkAsset id gn onm otp gv))) id "docType" = none ∧
      decodedField (putState s id (encode (mkAsset id gn onm otp gv))) id "id" =
        some (.str id)) := by
  have hnd : Json.nodupKeys [("id", Json.str id), ("game_name", .str gn),
      ("owner_name", .str onm), ("owner_type", .str otp), ("game_value", gv)] = true := by
    rfl
  constructor
  · intro hp
    unfold createAsset
    rw [if_pos ((assetExists_iff_present s id).mpr hp)]
  · intro hp
    have hex : assetExists s id = false := (assetExists_false_iff s id).mpr hp
    refine ⟨by simp [createAsset, hex], ⟨_, rfl, rfl, rfl⟩, ?_, ?_⟩
    · rw [show mkAsset id gn onm otp gv = Json.obj [("id", Json.str id),
        ("game_name", .str gn), ("owner_name", .str onm), ("owner_type", .str otp),
        ("game_value", gv)] from rfl, decodedField_put_encode hnd]
      rfl
    · rw [show mkAsset id gn onm otp gv = Json.obj [("id", Json.str id),
        ("game_name", .str gn), ("owner_name", .str onm), ("owner_type", .str otp),
        ("game_value", gv)] from rfl, decodedField_put_encode hnd]
      rfl

/-- Witness for C2 at concrete inputs. -/
theorem claim2_witness :
    createAsset (putState [] "asset1"
        (encode (mkAsset "asset1" "Chess" "Robert" "player" (.num 100))))
      "asset1" "Chess" "Robert" "player" (.num 100) =
      .error (.alreadyExists "asset1") ∧
    createAsset [] "asset1" "Chess" "Robert" "player" (.num 100) =
      .ok (serializeJson (mkAsset "asset1" "Chess" "Robert" "player" (.num 100)),
        putState [] "asset1" (encode (mkAsset "asset1" "Chess" "Robert" "player" (.num 100)))) ∧
    decodedField (putState [] "asset1"
      (encode (mkAsset "asset1" "Chess" "Robert" "player" (.num 100)))) "asset1" "docType" =
      none := by
  have h1 := (claim2_create_asset (putState [] "asset1"
    (encode (mkAsset "asset1" "Chess" "Robert" "player" (.num 100))))
    "asset1" "Chess" "Robert" "player" (.num 100)).1
    ⟨encode (mkAsset "asset1" "Chess" "Robert" "player" (.num 100)),
      getState_putState_self [] "asset1" _, encode_ne_empty _⟩
  have h2 := (claim2_create_asset [] "asset1" "Chess" "Robert" "player" (.num 100)).2
    (by rintro ⟨v, hv, -⟩; cases hv)
  exact ⟨h1, h2.1, h2.2.2.1⟩

/-- Claim C5: on a present id, UpdateAsset replaces the stored record
entirely with one built only from the parameters; the stored bytes become
the canonical encoding of the five-field record, whose decoded form has
exactly those five (sorted) keys and no docType. -/
theorem claim5_update_full_replace (s : Store) (id gn onm otp : String) (gv : Json)
    (h : present s id) :
    updateAsset s id gn onm otp gv =
      .ok (putState s id (encode (mkAsset id gn onm otp gv))) ∧
    getState (putState s id (encode (mkAsset id gn onm otp gv))) id =
      some (encode (mkAsset id gn onm otp gv)) ∧
    decodedField (putState s id (encode (mkAsset id gn onm otp gv))) id "docType" = none ∧
    (∃ fields, parseJson (encode (mkAsset id gn onm otp gv)) = some (.obj fields) ∧
      Json.keysOf fields =
        ["game_name", "game_value", "id", "owner_name", "owner_type"]) := by
  have hnd : Json.nodupKeys [("id", Json.str id), ("game_name", .str gn),
      ("owner_name", .str onm), ("owner_type", .str otp), ("game_value", gv)] = true := by
    rfl
  refine ⟨?_, getState_putState_self s id _, ?_, ?_⟩
  · unfold updateAsset
    rw [if_pos ((assetExists_iff_present s id).mpr h)]
  · rw [show mkAsset id gn onm otp gv = Json.obj [("id", Json.str id),
      ("game_name", .str gn), ("owner_name", .str onm), ("owner_type", .str otp),
      ("game_value", gv)] from rfl, decodedField_put_encode hnd]
    rfl
  · refine ⟨_, by rw [parseJson_encode]; rfl, ?_⟩
    rfl

/-- Witness for C5: the InitLedger record for asset1 carries docType, and
after UpdateAsset the stored record no longer carries it. -/
theorem claim5_witness :
    decodedField (initLedger []) "asset1" "docType" = some (.str "asset") ∧
    updateAsset (initLedger []) "asset1" "Chess" "Me" "player" (.num 500) =
      .ok (putState (initLedger []) "asset1"
        (encode (mkAsset "asset1" "Chess" "Me" "player" (.num 500)))) ∧
    decodedField (putState (initLedger []) "asset1"
      (encode (mkAsset "asset1" "Chess" "Me" "player" (.num 500)))) "asset1" "docType" =
      none := by
  have h := claim5_update_full_replace (initLedger []) "asset1" "Chess" "Me" "player"
    (.num 500) (by
      refine ⟨encode ((mkAsset "asset1" "game1" "Tomoko" "player" (.num 300)).setField
        "docType" (.str "asset")), ?_, ?_⟩ <;> decide)
  exact ⟨by decide, h.1, h.2.2.1⟩

/-- Claim C6: GetAllAssets returns one entry per stored key-value pair in
scan order; a stored value that fails to decode is kept as its raw string;
a create on a fresh key grows the store by exactly one entry. -/
theorem claim6_get_all_assets (s : Store) :
    (getAllRecords s).length = s.length ∧
    (∀ (i : Nat) (kv : String × String), s[i]? = some kv → parseJson kv.2 = none →
      (getAllRecords s)[i]? = some (.str kv.2)) ∧
    (∀ (i : Nat) (kv : String × String) (j : Json), s[i]? = some kv →
      parseJson kv.2 = some j → (getAllRecords s)[i]? = some j) ∧
    (∀ id gn onm otp gv out s', getState s id = none →
      createAsset s id gn onm otp gv = .ok (out, s') →
      s'.length = s.length + 1) := by
  refine ⟨List.length_map s _, ?_, ?_, ?_⟩
  · intro i kv hkv hp
    unfold getAllRecords
    rw [List.getElem?_map, hkv]
    simp [recordOf, hp]
  · intro i kv j hkv hp
    unfold getAllRecords
    rw [List.getElem?_map, hkv]
    simp [recordOf, hp]
  · intro id gn onm otp gv out s' hget h
    obtain ⟨-, -, rfl⟩ := createAsset_cases h
    exact length_putState_of_absent s id _ hget

/-- Witness for C6: four creates from an empty store give four entries,
and a non-JSON stored value is kept as a raw string entry. -/
theorem claim6_witness :
    (getAllRecords (applyOp (applyOp (applyOp (applyOp [] (.create "asset1" "Chess"
      "Robert" "player" (.num 100))) (.create "asset2" "Poker" "Paul" "player"
      (.num 200))) (.create "asset3" "Monopoly" "Troy" "player" (.num 300)))
      (.create "asset4" "Scrabble" "Van" "player" (.num 400)))).length = 4 ∧
    (getAllRecords [("asset1", "non-json-value")])[0]? =
      some (.str "non-json-value") := by
  constructor
  · rw [(claim6_get_all_assets _).1]
    decide
  · exact (claim6_get_all_assets [("asset1", "non-json-value")]).2.1 0
      ("asset1", "non-json-value") (by decide) (by decide)

/-- Claim C9: the canonical encoder is invertible and re-encoding is
idempotent: decoding `encode r` succeeds with a record carrying the same
key/value set (the fields are a permutation of the originals, with the same
canonicalisation applied to the values), and re-encoding it reproduces
`encode r` byte for byte. -/
theorem claim9_roundtrip (r : Json) :
    ∃ d, parseJson (encode r) = some d ∧ encode d = encode r ∧
      (∀ l, r = .obj l → ∃ fields, d = .obj fields ∧
        fields.Perm (l.map (fun kv => (kv.1, sortKeysRecursive kv.2)))) := by
  refine ⟨sortKeysRecursive r, parseJson_encode r, ?_, ?_⟩
  · rw [encode_eq_serialize_sortRec, encode_eq_serialize_sortRec, sortKeysRecursive_idem]
  · rintro l rfl
    refine ⟨_, rfl, (List.perm_insertionSort keyLe (sortFieldsRec l)).trans ?_⟩
    rw [sortFieldsRec_eq_map]

/-- Witness for C9 at a concrete record with unsorted fields. -/
theorem claim9_witness :
    ∃ d, parseJson (encode (Json.obj [("b", .num 1), ("a", .num 2)])) = some d ∧
      encode d = encode (Json.obj [("b", .num 1), ("a", .num 2)]) ∧
      ∃ fields, d = .obj fields ∧
        fields.Perm ([("b", Json.num 1), ("a", Json.num 2)].map
          (fun kv => (kv.1, sortKeysRecursive kv.2))) := by
  obtain ⟨d, h1, h2, h3⟩ := claim9_roundtrip (.obj [("b", .num 1), ("a", .num 2)])
  exact ⟨d, h1, h2, h3 _ rfl⟩

/-- Claim C1: every write of every write-performing operation stores the
canonical encoding of the record in question; the canonical form has all
mapping keys recursively sorted; and the encoding does not depend on the
order in which the record's fields were set. -/
theorem claim1_canonical_writes :
    (∀ s id gn onm otp gv out s', createAsset s id gn onm otp gv = .ok (out, s') →
      getState s' id = some (encode (mkAsset id gn onm otp gv))) ∧
    (∀ s id gn onm otp gv s', updateAsset s id gn onm otp gv = .ok s' →
      getState s' id = some (encode (mkAsset id gn onm otp gv))) ∧
    (∀ s id nw r s', transferAsset s id nw = .ok (r, s') →
      ∃ v a, getState s id = some v ∧ parseJson v = some a ∧
        getState s' id = some (encode (Json.setField a "owner_name" (.str nw)))) ∧
    (∀ s, ∀ a ∈ preparedAssets, getState (initLedger s) a.idString = some (encode a)) ∧
    (∀ r, keysSortedDeep (sortKeysRecursive r) = true) ∧
    (∀ (l l' : List (String × Json)), l.Perm l' → Json.nodupKeys l = true →
      encode (.obj l) = encode (.obj l')) := by
  refine ⟨?_, ?_, ?_, initLedger_run, keysSortedDeep_sortRec,
    fun l l' hp hnd => encode_obj_perm hp hnd⟩
  · intro s id gn onm otp gv out s' h
    obtain ⟨-, -, rfl⟩ := createAsset_cases h
    exact getState_putState_self s id _
  · intro s id gn onm otp gv s' h
    obtain ⟨-, rfl⟩ := updateAsset_cases h
    exact getState_putState_self s id _
  · intro s id nw r s' h
    obtain ⟨v, a, hv, -, hp, rfl, -⟩ := transferAsset_ok_cases h
    exact ⟨v, a, hv, hp, getState_putState_self s id _⟩

/-- Witness for C1 at concrete inputs. -/
theorem claim1_witness :
    getState (putState [] "asset1"
        (encode (mkAsset "asset1" "Chess" "Robert" "player" (.num 100)))) "asset1" =
      some (encode (mkAsset "asset1" "Chess" "Robert" "player" (.num 100))) ∧
    getState (initLedger []) "asset1" =
      some (encode ((mkAsset "asset1" "game1" "Tomoko" "player" (.num 300)).setField
        "docType" (.str "asset"))) ∧
    keysSortedDeep (sortKeysRecursive (.obj [("b", .num 1), ("a", .num 2)])) = true ∧
    encode (.obj [("b", .num 1), ("a", .num 2)]) =
      encode (.obj [("a", .num 2), ("b", .num 1)]) ∧
    (∃ r s', transferAsset (putState [] "asset1"
        (encode (mkAsset "asset1" "Chess" "Robert" "player" (.num 100))))
        "asset1" "Paul" = .ok (r, s') ∧
      ∃ v a, getState (putState [] "asset1"
          (encode (mkAsset "asset1" "Chess" "Robert" "player" (.num 100)))) "asset1" =
          some v ∧ parseJson v = some a ∧
        getState s' "asset1" = some (encode (Json.setField a "owner_name" (.str "Paul")))) := by
  refine ⟨claim1_canonical_writes.1 [] "asset1" "Chess" "Robert" "player" (.num 100)
      _ _ rfl,
    claim1_canonical_writes.2.2.2.1 []
      ((mkAsset "asset1" "game1" "Tomoko" "player" (.num 300)).setField
        "docType" (.str "asset")) (by decide),
    claim1_canonical_writes.2.2.2.2.1 (.obj [("b", .num 1), ("a", .num 2)]),
    claim1_canonical_writes.2.2.2.2.2 _ _
      (List.Perm.swap ("a", Json.num 2) ("b", Json.num 1) []) (by decide),
    ⟨_, _, rfl, claim1_canonical_writes.2.2.1 _ "asset1" "Paul" _ _ rfl⟩⟩

/-- Counterexample for C3 as stated: the value returned by a successful
TransferAsset carries the prior owner under the key `oldOwnerName`; it has
no `old_owner_name` field as the specification claims. -/
theorem claim3_counterexample :
    ((transferAsset (putState [] "asset1"
        (encode (mkAsset "asset1" "Chess" "Robert" "player" (.num 100))))
        "asset1" "Paul").toOption.bind
      (fun p => (parseJson p.1).bind (fun j => j.getField "old_owner_name"))) = none ∧
    (transferAsset (putState [] "asset1"
        (encode (mkAsset "asset1" "Chess" "Robert" "player" (.num 100))))
        "asset1" "Paul").toOption.map Prod.fst =
      some "\x7b\"oldOwnerName\":\"Robert\"\x7d" := by
  decide

/-- Claim C3 as amended: on a present id, TransferAsset changes only the
`owner_name` field of the stored record, a subsequent read shows the new
owner, and the operation returns the captured prior owner name under the
key `oldOwnerName` (not the full record). -/
theorem claim3_transfer (s : Store) (id nw v : String) (fields : List (String × Json))
    (hv : getState s id = some v) (hne : v ≠ "")
    (hp : parseJson v = some (.obj fields)) (hnd : Json.nodupKeys fields = true) :
    ∃ s', transferAsset s id nw =
        .ok (transferRet (Json.lookupField fields "owner_name"), s') ∧
      decodedField s' id "owner_name" = some (.str nw) ∧
      (∀ k, k ≠ "owner_name" →
        decodedField s' id k = (Json.lookupField fields k).map sortKeysRecursive) ∧
      ((∀ p ∈ fields, sortKeysRecursive p.2 = p.2) → ∀ k, k ≠ "owner_name" →
        decodedField s' id k = Json.lookupField fields k) ∧
      readAsset s' id = .ok (encode (.obj (Json.setPair fields "owner_name" (.str nw)))) := by
  have hra : readAsset s id = .ok v := readAsset_ok_iff.mpr ⟨hv, hne⟩
  refine ⟨putState s id (encode (.obj (Json.setPair fields "owner_name" (.str nw)))),
    ?_, ?_, ?_, ?_, ?_⟩
  · unfold transferAsset
    rw [hra]
    show (match parseJson v with
      | none => (.error .syntaxError : Except CCError (String × Store))
      | some (.obj fields) =>
        .ok (transferRet (Json.lookupField fields "owner_name"),
          putState s id (encode (.obj (Json.setPair fields "owner_name" (.str nw)))))
      | some (.arr xs) => .ok (transferRet none, putState s id (encode (.arr xs)))
      | some _ => .error .typeError) = _
    rw [hp]
  · rw [decodedField_put_encode (nodupKeys_setPair fields "owner_name" (.str nw) hnd),
      lookup_setPair_self]
    rfl
  · intro k hk
    rw [decodedField_put_encode (nodupKeys_setPair fields "owner_name" (.str nw) hnd),
      lookup_setPair_ne fields "owner_name" k (.str nw) hk]
  · intro hall k hk
    rw [decodedField_put_encode (nodupKeys_setPair fields "owner_name" (.str nw) hnd),
      lookup_setPair_ne fields "owner_name" k (.str nw) hk]
    cases hlk : Json.lookupField fields k with
    | none => rfl
    | some w =>
      simp [Option.map_some', hall (k, w) (lookupField_mem hlk)]
  · exact readAsset_ok_iff.mpr ⟨getState_putState_self s id _, encode_ne_empty _⟩

/-- Witness for C3 at the concrete scenario of the specification. -/
theorem claim3_witness :
    ∃ s', transferAsset (putState [] "asset1"
        (encode (mkAsset "asset1" "Chess" "Robert" "player" (.num 100))))
        "asset1" "Paul" =
        .ok (transferRet (Json.lookupField
          [("game_name", Json.str "Chess"), ("game_value", Json.num 100),
           ("id", Json.str "asset1"), ("owner_name", Json.str "Robert"),
           ("owner_type", Json.str "player")] "owner_name"), s') ∧
      decodedField s' "asset1" "owner_name" = some (.str "Paul") := by
  obtain ⟨s', h1, h2, -, -, -⟩ := claim3_transfer
    (putState [] "asset1" (encode (mkAsset "asset1" "Chess" "Robert" "player" (.num 100))))
    "asset1" "Paul"
    (encode (mkAsset "asset1" "Chess" "Robert" "player" (.num 100)))
    [("game_name", Json.str "Chess"), ("game_value", Json.num 100),
     ("id", Json.str "asset1"), ("owner_name", Json.str "Robert"),
     ("owner_type", Json.str "player")]
    (by decide) (by decide) (by decide) (by decide)
  exact ⟨s', h1, h2⟩

theorem initLedgerLoop_split : ∀ (l1 : List Json) (a : Json) (l2 : List Json)
    (fails : String → Bool) (s : Store),
    (∀ b ∈ l1, fails b.idString = false) → fails a.idString = true →
    initLedgerLoop fails (l1 ++ a :: l2) s =
      (l1.foldl (fun st b => putState st b.idString (encode b)) s, some a.idString) := by
  intro l1
  induction l1 with
  | nil =>
    intro a l2 fails s _ hf
    simp [initLedgerLoop, hf]
  | cons b t ih =>
    intro a l2 fails s hl hf
    simp only [List.cons_append, initLedgerLoop, List.foldl_cons,
      hl b (List.mem_cons_self _ _), Bool.false_eq_true, if_false]
    exact ih a l2 fails _ (fun c hc => hl c (List.mem_cons_of_mem _ hc)) hf

/-- Claim C8: InitLedger writes every record of the fixed seed set, tagged
with docType = "asset", canonically encoded under its id; and when the
write of the k-th record fails, the failure propagates and exactly the
records before it remain committed. -/
theorem claim8_init_ledger :
    (∀ s, ∀ a ∈ preparedAssets,
      getState (initLedger s) a.idString = some (encode a) ∧
      a.getField "docType" = some (.str "asset")) ∧
    (∀ (fails : String → Bool) (s : Store) (l1 : List Json) (a : Json) (l2 : List Json),
      preparedAssets = l1 ++ a :: l2 →
      (∀ b ∈ l1, fails b.idString = false) → fails a.idString = true →
      initLedgerWithFailures fails s =
        (l1.foldl (fun st b => putState st b.idString (encode b)) s, some a.idString)) := by
  constructor
  · intro s a ha
    have hdoc : ∀ b ∈ preparedAssets, Json.getField b "docType" = some (.str "asset") := by
      decide
    exact ⟨initLedger_run s a ha, hdoc a ha⟩
  · intro fails s l1 a l2 hsplit h1 h2
    unfold initLedgerWithFailures
    rw [hsplit]
    exact initLedgerLoop_split l1 a l2 fails s h1 h2

/-- Witness for C8: a failing write of the third seed record aborts the
loop with the first two records committed. -/
theorem claim8_witness :
    getState (initLedger []) ((mkAsset "asset1" "game1" "Tomoko" "player"
        (.num 300)).setField "docType" (.str "asset")).idString =
      some (encode ((mkAsset "asset1" "game1" "Tomoko" "player"
        (.num 300)).setField "docType" (.str "asset"))) ∧
    initLedgerWithFailures (fun k => k == "asset3") [] =
      ([ (mkAsset "asset1" "game1" "Tomoko" "player" (.num 300)).setField
           "docType" (.str "asset"),
         (mkAsset "asset2" "game2" "Brad" "player" (.num 400)).setField
           "docType" (.str "asset") ].foldl
        (fun st b => putState st b.idString (encode b)) [],
       some ((mkAsset "asset3" "game3" "Jin Soo" "player" (.num 500)).setField
         "docType" (.str "asset")).idString) := by
  refine ⟨(claim8_init_ledger.1 [] _ (by decide)).1, ?_⟩
  exact claim8_init_ledger.2 (fun k => k == "asset3") []
    [ (mkAsset "asset1" "game1" "Tomoko" "player" (.num 300)).setField
        "docType" (.str "asset"),
      (mkAsset "asset2" "game2" "Brad" "player" (.num 400)).setField
        "docType" (.str "asset") ]
    ((mkAsset "asset3" "game3" "Jin Soo" "player" (.num 500)).setField
      "docType" (.str "asset"))
    [ (mkAsset "asset4" "game4" "Max" "player" (.num 600)).setField
        "docType" (.str "asset"),
      (mkAsset "asset5" "game5" "Adriana" "player" (.num 700)).setField
        "docType" (.str "asset"),
      (mkAsset "asset6" "game6" "Michel" "player" (.num 800)).setField
        "docType" (.str "asset") ]
    rfl (by decide) (by decide)

theorem applyOp_canonical (s : Store) (hInv : ∀ kv ∈ s, storedCanonical kv)
    (op : Op) : ∀ kv ∈ applyOp s op, storedCanonical kv := by
  intro kv hkv
  cases op with
  | initLedger =>
    simp only [applyOp] at hkv
    unfold initLedger at hkv
    rcases mem_foldl_put preparedAssets s kv hkv with h1 | ⟨a, ha, rfl⟩
    · exact hInv kv h1
    · exact preparedAssets_canonical a ha
  | create id gn onm otp gv =>
    simp only [applyOp] at hkv
    cases hc : createAsset s id gn onm otp gv with
    | error e =>
      rw [hc] at hkv
      exact hInv kv hkv
    | ok p =>
      rw [hc] at hkv
      obtain ⟨-, -, hs'⟩ :=
        createAsset_cases (show createAsset s id gn onm otp gv = .ok (p.1, p.2) from hc)
      have hkv2 : kv ∈ p.2 := hkv
      rw [hs'] at hkv2
      rcases mem_putState hkv2 with h2 | h2
      · rw [h2]
        exact ⟨[("id", Json.str id), ("game_name", .str gn), ("owner_name", .str onm),
          ("owner_type", .str otp), ("game_value", gv)], rfl, rfl, rfl⟩
      · exact hInv kv h2
  | update id gn onm otp gv =>
    simp only [applyOp] at hkv
    cases hc : updateAsset s id gn onm otp gv with
    | error e =>
      rw [hc] at hkv
      exact hInv kv hkv
    | ok st =>
      rw [hc] at hkv
      obtain ⟨-, hs'⟩ := updateAsset_cases hc
      have hkv2 : kv ∈ st := hkv
      rw [hs'] at hkv2
      rcases mem_putState hkv2 with h2 | h2
      · rw [h2]
        exact ⟨[("id", Json.str id), ("game_name", .str gn), ("owner_name", .str onm),
          ("owner_type", .str otp), ("game_value", gv)], rfl, rfl, rfl⟩
      · exact hInv kv h2
  | delete id =>
    simp only [applyOp] at hkv
    cases hc : deleteAsset s id with
    | error e =>
      rw [hc] at hkv
      exact hInv kv hkv
    | ok st =>
      rw [hc] at hkv
      obtain ⟨-, hs'⟩ := deleteAsset_cases hc
      have hkv2 : kv ∈ st := hkv
      rw [hs'] at hkv2
      exact hInv kv (mem_deleteState hkv2)
  | transfer id nw =>
    simp only [applyOp] at hkv
    cases ht : transferAsset s id nw with
    | error e =>
      rw [ht] at hkv
      exact hInv kv hkv
    | ok p =>
      rw [ht] at hkv
      obtain ⟨v, a, hv, hne, hp, hs', -⟩ :=
        transferAsset_ok_cases (show transferAsset s id nw = .ok (p.1, p.2) from ht)
      have hkv2 : kv ∈ p.2 := hkv
      rw [hs'] at hkv2
      rcases mem_putState hkv2 with h2 | h2
      · obtain ⟨fields₀, henc, hnd₀, hid₀⟩ := hInv (id, v) (getState_mem hv)
        have hpv : parseJson v =
            some (.obj (List.insertionSort keyLe (sortFieldsRec fields₀))) := by
          rw [show v = encode (.obj fields₀) from henc, parseJson_encode]
          rfl
        have ha : a = .obj (List.insertionSort keyLe (sortFieldsRec fields₀)) :=
          Option.some.inj (hp.symm.trans hpv)
        have hndS : Json.nodupKeys
            (List.insertionSort keyLe (sortFieldsRec fields₀)) = true :=
          nodupKeys_of_perm (List.perm_insertionSort keyLe _).symm
            ((nodupKeys_sortFieldsRec fields₀).symm ▸ hnd₀)
        rw [h2, ha]
        refine ⟨Json.setPair (List.insertionSort keyLe (sortFieldsRec fields₀))
          "owner_name" (.str nw), rfl, nodupKeys_setPair _ _ _ hndS, ?_⟩
        rw [lookup_setPair_ne _ _ _ _ (by decide),
          lookupField_perm ((nodupKeys_sortFieldsRec fields₀).symm ▸ hnd₀)
            (List.perm_insertionSort keyLe _).symm,
          lookupField_sortFieldsRec, hid₀]
        rfl
      · exact hInv kv h2

theorem runOps_canonical : ∀ (ops : List Op) (s : Store),
    (∀ kv ∈ s, storedCanonical kv) → ∀ kv ∈ ops.foldl applyOp s, storedCanonical kv := by
  intro ops
  induction ops with
  | nil => intro s h kv hkv; exact h kv hkv
  | cons op rest ih =>
    intro s h kv hkv
    simp only [List.foldl_cons] at hkv
    exact ih _ (applyOp_canonical s h op) kv hkv

/-- Claim C10: starting from an empty store, after any sequence of
write-performing transactions every stored value decodes to a JSON mapping
whose `id` field equals the key it is stored under. -/
theorem claim10_key_matches_id (ops : List Op) (kv : String × String)
    (h : kv ∈ runOps ops) : storedRecordOK kv :=
  storedCanonical_lookup_id
    (runOps_canonical ops [] (by intro kv hkv; cases hkv) kv h)

/-- Witness for C10 on a concrete transaction sequence. -/
theorem claim10_witness :
    storedRecordOK ("asset1",
      encode (mkAsset "asset1" "Chess" "Paul" "player" (.num 100))) := by
  exact claim10_key_matches_id
    [.create "asset1" "Chess" "Robert" "player" (.num 100),
     .transfer "asset1" "Paul"]
    ("asset1", encode (mkAsset "asset1" "Chess" "Paul" "player" (.num 100)))
    (by decide)

end Ledger
